import Mathlib

set_option maxRecDepth 100000
set_option maxHeartbeats 2000000

/-!
Verification development for the `orderly` SKU curation engine.

The engine lives in `src/hitl/utils/alias_cleaning.py` (normalization,
typo-collapse, canonical-token selection, alias ranking),
`src/src/transform/sku_curation_cli.py` (decision rule / curation record)
and `src/hitl/generate_sku_seed.py` (versioned seed merge).

Python strings are modelled as lists of Unicode codepoints (`Str`);
Python ints as `Nat`; `rapidfuzz` similarity scores (floats on a 0-100
scale) as exact rationals.  The ASCII fragments of Python `str.lower`,
`str.upper`, `str.isalpha`, and of the regex classes used by the code
are modelled pointwise on codepoints.
-/

namespace Orderly

/-- Model of a Python string: the list of its Unicode codepoints. -/
abbrev Str := List Nat

/-- Embed a Lean string literal as a codepoint list. -/
def strOf (s : String) : Str := s.data.map Char.toNat

/-- ASCII fragment of Python `str.lower` on one codepoint. -/
def toLowerCp (n : Nat) : Nat := if 65 ≤ n ∧ n ≤ 90 then n + 32 else n

/-- ASCII fragment of Python `str.upper` on one codepoint. -/
def toUpperCp (n : Nat) : Nat := if 97 ≤ n ∧ n ≤ 122 then n - 32 else n

/-- Python `s.lower()`. -/
def lowerStr (s : Str) : Str := s.map toLowerCp

/-- Python `s.upper()`. -/
def upperStr (s : Str) : Str := s.map toUpperCp

/-- Membership in the regex class `\s` (ASCII fragment). -/
def isSpaceCp (n : Nat) : Bool :=
  n = 32 || n = 9 || n = 10 || n = 13 || n = 11 || n = 12

/-- Membership in the regex class `\w` (ASCII fragment: alphanumerics and underscore). -/
def isWordCp (n : Nat) : Bool :=
  (48 ≤ n && n ≤ 57) || (65 ≤ n && n ≤ 90) || (97 ≤ n && n ≤ 122) || n = 95

/-- Membership in the ASCII decimal-digit class `\d`. -/
def isDigitCp (n : Nat) : Bool := 48 ≤ n && n ≤ 57

/-- Membership in the ASCII alphabetic class, one codepoint of `str.isalpha`. -/
def isAlphaCp (n : Nat) : Bool := (65 ≤ n && n ≤ 90) || (97 ≤ n && n ≤ 122)

/-- Python `t.isalpha()`: nonempty and all alphabetic. -/
def isAlphaStr (t : Str) : Bool := !t.isEmpty && t.all isAlphaCp

/-- Helper for `replaceRuns`: the flag records whether the previous
codepoint was part of a run being replaced. -/
def replaceRunsAux (p : Nat → Bool) (rep : Nat) : Str → Bool → Str
  | [], _ => []
  | c :: rest, inRun =>
    if p c then
      if inRun then replaceRunsAux p rep rest true
      else rep :: replaceRunsAux p rep rest true
    else c :: replaceRunsAux p rep rest false

/-- Replace every maximal run of codepoints satisfying `p` by the single
codepoint `rep`.  This is `re.sub` with a pattern of the form `[class]+`
and a one-character replacement, as used by `_PUNCT_RE.sub` and
`_WS_RE.sub` in `alias_cleaning.py`. -/
def replaceRuns (p : Nat → Bool) (rep : Nat) (s : Str) : Str :=
  replaceRunsAux p rep s false

/-- Python `s.strip()`: drop whitespace from both ends. -/
def stripStr (s : Str) : Str :=
  ((s.dropWhile isSpaceCp).reverse.dropWhile isSpaceCp).reverse

/-- Helper for `splitWs`: accumulate the current (reversed) token. -/
def splitWsAux : Str → Str → List Str
  | [], acc => if acc.isEmpty then [] else [acc.reverse]
  | c :: rest, acc =>
    if isSpaceCp c then
      if acc.isEmpty then splitWsAux rest [] else acc.reverse :: splitWsAux rest []
    else splitWsAux rest (c :: acc)

/-- Python `s.split()` with no argument: split on whitespace runs,
discarding empty pieces. -/
def splitWs (s : Str) : List Str := splitWsAux s []

/-- Python `sep.join(parts)`. -/
def joinSep (sep : Str) : List Str → Str
  | [] => []
  | [t] => t
  | t :: rest => t ++ sep ++ joinSep sep rest

/-- Join with a single ASCII space, Python `" ".join(parts)`. -/
def joinSpace (parts : List Str) : Str := joinSep [32] parts

/-- Join with a comma, Python `",".join(parts)`. -/
def joinComma (parts : List Str) : Str := joinSep [44] parts

/-- The frozen `sklearn.feature_extraction.text.ENGLISH_STOP_WORDS` list. -/
def ENGLISH_STOP_WORDS : List Str :=
  ([ "a", "about", "above", "across", "after", "afterwards", "again",
  "against", "all", "almost", "alone", "along", "already", "also",
  "although", "always", "am", "among", "amongst", "amoungst", "amount",
  "an", "and", "another", "any", "anyhow", "anyone", "anything",
  "anyway", "anywhere", "are", "around", "as", "at", "back", "be",
  "became", "because", "become", "becomes", "becoming", "been",
  "before", "beforehand", "behind", "being", "below", "beside",
  "besides", "between", "beyond", "bill", "both", "bottom", "but",
  "by", "call", "can", "cannot", "cant", "co", "con", "could",
  "couldnt", "cry", "de", "describe", "detail", "do", "done", "down",
  "due", "during", "each", "eg", "eight", "either", "eleven", "else",
  "elsewhere", "empty", "enough", "etc", "even", "ever", "every",
  "everyone", "everything", "everywhere", "except", "few", "fifteen",
  "fifty", "fill", "find", "fire", "first", "five", "for", "former",
  "formerly", "forty", "found", "four", "from", "front", "full",
  "further", "get", "give", "go", "had", "has", "hasnt", "have", "he",
  "hence", "her", "here", "hereafter", "hereby", "herein", "hereupon",
  "hers", "herself", "him", "himself", "his", "how", "however",
  "hundred", "i", "ie", "if", "in", "inc", "indeed", "interest",
  "into", "is", "it", "its", "itself", "keep", "last", "latter",
  "latterly", "least", "less", "ltd", "made", "many", "may", "me",
  "meanwhile", "might", "mill", "mine", "more", "moreover", "most",
  "mostly", "move", "much", "must", "my", "myself", "name", "namely",
  "neither", "never", "nevertheless", "next", "nine", "no", "nobody",
  "none", "noone", "nor", "not", "nothing", "now", "nowhere", "of",
  "off", "often", "on", "once", "one", "only", "onto", "or", "other",
  "others", "otherwise", "our", "ours", "ourselves", "out", "over",
  "own", "part", "per", "perhaps", "please", "put", "rather", "re",
  "same", "see", "seem", "seemed", "seeming", "seems", "serious",
  "several", "she", "should", "show", "side", "since", "sincere",
  "six", "sixty", "so", "some", "somehow", "someone", "something",
  "sometime", "sometimes", "somewhere", "still", "such", "system",
  "take", "ten", "than", "that", "the", "their", "them", "themselves",
  "then", "thence", "there", "thereafter", "thereby", "therefore",
  "therein", "thereupon", "these", "they", "thick", "thin", "third",
  "this", "those", "though", "three", "through", "throughout", "thru",
  "thus", "to", "together", "too", "top", "toward", "towards",
  "twelve", "twenty", "two", "un", "under", "until", "up", "upon",
  "us", "very", "via", "was", "we", "well", "were", "what", "whatever",
  "when", "whence", "whenever", "where", "whereafter", "whereas",
  "whereby", "wherein", "whereupon", "wherever", "whether", "which",
  "while", "whither", "who", "whoever", "whole", "whom", "whose",
  "why", "will", "with", "within", "without", "would", "yet", "you",
  "your", "yours", "yourself", "yourselves" ] : List String).map strOf

/-- Codepoints that `_PUNCT_RE` (the regex class of non-word, non-space
characters) matches. -/
def isPunctCp (n : Nat) : Bool := !isWordCp n && !isSpaceCp n

/-- Embedding of `_normalize` from `alias_cleaning.py`: lowercase,
replace punctuation runs by a space, collapse whitespace runs, strip,
then drop stopword tokens and rejoin with single spaces. -/
def _normalize (s : Str) : Str :=
  let s1 := lowerStr s
  let s2 := replaceRuns isPunctCp 32 s1
  let s3 := replaceRuns isSpaceCp 32 s2
  let s4 := stripStr s3
  joinSpace ((splitWs s4).filter
    (fun t => !t.isEmpty && !(ENGLISH_STOP_WORDS.contains t)))

/-- Embedding of `_norm_tokens`: normalized tokens that are alphabetic only. -/
def _norm_tokens (s : Str) : List Str :=
  (splitWs (_normalize s)).filter isAlphaStr

end Orderly

namespace Orderly

/-! Levenshtein distance (as in `rapidfuzz.distance.Levenshtein` with
unit weights), computed row by row. -/

/-- Compute the tail of the next Levenshtein DP row.  Arguments: current
codepoint of the first string, remaining codepoints of the second string,
matching tail of the previous row, value diagonally up-left, value to the
left. -/
def levRowGo (ca : Nat) : Str → List Nat → Nat → Nat → List Nat
  | cb :: bs, pj :: ps, diag, left =>
    let cost : Nat := if ca = cb then 0 else 1
    let cur := min (min (pj + 1) (left + 1)) (diag + cost)
    cur :: levRowGo ca bs ps pj cur
  | _, _, _, _ => []

/-- Levenshtein edit distance with unit insert/delete/substitute costs. -/
def levenshtein (a b : Str) : Nat :=
  let final := (a.foldl
    (fun (acc : List Nat × Nat) ca =>
      let row := acc.1
      let i := acc.2 + 1
      (i :: levRowGo ca b row.tail (row.headD 0) i, i))
    (List.range (b.length + 1), 0)).1
  final.getLastD 0

/-! Longest common subsequence length, used to express the `rapidfuzz`
Indel-based `fuzz.ratio`: the Indel distance of two strings of lengths
`m` and `n` is `m + n - 2 * lcs`, so the similarity ratio on the 0-100
scale is `200 * lcs / (m + n)`. -/

/-- Compute the next LCS DP row (entries for columns 1..n; column 0 is
always 0 and is kept implicit). -/
def lcsRowGo (ca : Nat) : Str → List Nat → Nat → Nat → List Nat
  | cb :: bs, pj :: ps, diag, left =>
    let cur := if ca = cb then diag + 1 else max pj left
    cur :: lcsRowGo ca bs ps pj cur
  | _, _, _, _ => []

/-- Length of a longest common subsequence of two codepoint lists. -/
def lcsLen (a b : Str) : Nat :=
  (a.foldl (fun row ca => lcsRowGo ca b row 0 0)
    (List.replicate b.length 0)).getLastD 0

/-- Model of `rapidfuzz.fuzz.ratio`: the normalized Indel similarity on
a 0-100 scale, as an exact rational `200 * lcs / (len a + len b)`. -/
def fuzzRatio (a b : Str) : ℚ :=
  if a.length + b.length = 0 then 100
  else mkRat (200 * (lcsLen a b : Int)) (a.length + b.length)

/-- Lexicographic strict order on codepoint lists, Python string `<`. -/
def lexLt : Str → Str → Bool
  | [], [] => false
  | [], _ :: _ => true
  | _ :: _, [] => false
  | a :: as_, b :: bs =>
    if a < b then true else if a = b then lexLt as_ bs else false

/-- Ascending Python string order as a total Boolean relation. -/
def strLeB (a b : Str) : Bool := !lexLt b a

/-- Model of Python `sorted(tokens)` on strings.  Insertion sort is a
stable sort, and the output of a stable sort by a fixed total preorder
is unique, so this agrees with the list Python's stable sort returns. -/
def sortedStrs (l : List Str) : List Str :=
  l.insertionSort (fun x y => strLeB x y = true)

/-- Model of `rapidfuzz.fuzz.token_sort_ratio`: sort the whitespace
tokens of both strings, rejoin with single spaces, and take the Indel
ratio of the results. -/
def token_sort_ratio (a b : Str) : ℚ :=
  fuzzRatio (joinSpace (sortedStrs (splitWs a))) (joinSpace (sortedStrs (splitWs b)))

end Orderly

namespace Orderly

/-! The typo-collapse / canonical-token / ranking pipeline of
`alias_cleaning.py`. -/

/-- First-occurrence deduplication, the key order of a Python
`dict` / `Counter` built by one pass over a stream. -/
def firstDedup : List Str → List Str
  | [] => []
  | t :: rest => t :: (firstDedup rest).filter (fun x => !(x == t))

/-- Sort key used for `reps_sorted`: `(counts[x], len(x), x)`. -/
def repKey (counts : Str → Nat) (x : Str) : Nat × Nat × Str := (counts x, x.length, x)

/-- Strict lexicographic order on `(count, length, string)` triples,
Python tuple `<`. -/
def tripleLtB : Nat × Nat × Str → Nat × Nat × Str → Bool
  | (c1, l1, s1), (c2, l2, s2) =>
    c1 < c2 || (c1 = c2 && (l1 < l2 || (l1 = l2 && lexLt s1 s2)))

/-- Lookup in an association-list model of a Python dict, with the
dict-absent default `t` itself: `rep_map.get(t, t)`. -/
def repGet (m : List (Str × Str)) (t : Str) : Str :=
  match m.find? (fun p => p.1 == t) with
  | some p => p.2
  | none => t

/-- Representative chosen for token `t` by the scan over `reps_sorted`
inside `build_rep_map_typo_collapse`: the first candidate `r` that
either equals `t`, or has length at least `min_rep_len` and Levenshtein
distance at most `max_edit_distance` from `t`; default `t`. -/
def findRep (max_edit_distance min_rep_len : Nat) (t : Str) (reps : List Str) : Str :=
  match reps.find? (fun r =>
      r == t || (min_rep_len ≤ r.length && levenshtein t r ≤ max_edit_distance)) with
  | some r => r
  | none => t

/-- Embedding of `build_rep_map_typo_collapse`: map each vocabulary
token to its first eligible representative in the fixed global order
sorted by `(frequency, length, token)` descending. -/
def build_rep_map_typo_collapse (token_lists : List (List Str))
    (max_edit_distance : Nat := 2) (min_rep_len : Nat := 4) : List (Str × Str) :=
  let alltoks := token_lists.flatten
  let vocab := firstDedup alltoks
  if vocab.isEmpty then [] else
  let counts := fun t => alltoks.count t
  let reps_sorted := vocab.insertionSort
    (fun x y => (!tripleLtB (repKey counts x) (repKey counts y)) = true)
  vocab.map (fun t => (t, findRep max_edit_distance min_rep_len t reps_sorted))

/-- Embedding of `_apply_rep_map`: replace each token by its
representative, unknown tokens unchanged. -/
def _apply_rep_map (token_lists : List (List Str)) (rep_map : List (Str × Str)) :
    List (List Str) :=
  token_lists.map (fun lst => lst.map (repGet rep_map))

/-- Strict order of the canonical-token sort key
`(-count, -len(token), token)`: count descending, then length
descending, then token ascending. -/
def canonLtB : Str × Nat → Str × Nat → Bool
  | (s1, c1), (s2, c2) =>
    c2 < c1 || (c1 = c2 && (s2.length < s1.length || (s1.length = s2.length && lexLt s1 s2)))

/-- Embedding of `most_frequent_canonical_tokens`: count token presence
per alias (set semantics) when `use_presence`, occurrences otherwise;
sort by frequency descending, length descending, lexicographic
ascending; return the top `top_m`. -/
def most_frequent_canonical_tokens (transformed_token_lists : List (List Str))
    (top_m : Nat := 5) (use_presence : Bool := true) : List Str :=
  let stream := if use_presence then (transformed_token_lists.map firstDedup).flatten
    else transformed_token_lists.flatten
  let items := (firstDedup stream).map (fun t => (t, stream.count t))
  if items.isEmpty then [] else
  let sorted := items.insertionSort (fun x y => (!canonLtB y x) = true)
  (sorted.take top_m).map Prod.fst

/-- Embedding of `_alias_to_transformed_string`: normalized alphabetic
tokens with representatives applied, rejoined with single spaces. -/
def _alias_to_transformed_string (alias_ : Str) (rep_map : List (Str × Str)) : Str :=
  joinSpace ((_norm_tokens alias_).map (repGet rep_map))

/-- Descending order on `(score, frequency)` pairs used to rank scored
aliases; `rankLeB x y` holds when `x` may come before `y`. -/
def rankLeB (x y : Str × ℚ × Nat) : Bool :=
  decide (y.2.1 < x.2.1) || (decide (x.2.1 = y.2.1) && decide (y.2.2 ≤ x.2.2))

/-- Embedding of `rank_by_tokens`: score each non-blank original alias
against the canonical-token target with the order-insensitive
`token_sort_ratio`, tie-break by exact-string frequency in the input
list, sort stably by `(score, frequency)` descending, and keep the top
`k`.  Insertion sort is a stable sort, so it returns the same list as
the stable Python sort with `reverse=True`. -/
def rank_by_tokens (aliases : List Str) (target_tokens : List Str) (k : Nat := 3) :
    List (Str × ℚ × Nat) :=
  if target_tokens.isEmpty then [] else
  let target := joinSpace target_tokens
  let target_norm := _normalize target
  let scored := (aliases.filter (fun a => !a.isEmpty && !(stripStr a).isEmpty)).map
    (fun a => (a, token_sort_ratio (_normalize a) target_norm, aliases.count a))
  let sorted := scored.insertionSort (fun x y => rankLeB x y = true)
  sorted.take k

/-- Result record of `transform_aliases_with_canonical_tokens` (the
`params` echo field is omitted). -/
structure TransformResult where
  rep_map : List (Str × Str)
  transformed_aliases : List Str
  canonical_tokens : List Str
  top_k_original : List (Str × ℚ × Nat)
  top_k_canonicalized : List (Str × Str × ℚ × Nat)
deriving DecidableEq, Repr

/-- Embedding of the end-to-end `transform_aliases_with_canonical_tokens`
pipeline. -/
def transform_aliases_with_canonical_tokens (aliases : List Str)
    (max_edit_distance : Nat := 1) (min_rep_len : Nat := 4)
    (top_m_canonical_tokens : Nat := 5) (top_k_original : Nat := 3) : TransformResult :=
  let al := aliases.filter (fun a => !a.isEmpty && !(stripStr a).isEmpty)
  if al.isEmpty then ⟨[], [], [], [], []⟩ else
  let token_lists := al.map _norm_tokens
  let rep_map := build_rep_map_typo_collapse token_lists max_edit_distance min_rep_len
  let transformed_lists := _apply_rep_map token_lists rep_map
  let transformed_aliases := transformed_lists.map joinSpace
  let canonical_tokens :=
    most_frequent_canonical_tokens transformed_lists top_m_canonical_tokens true
  let top_original := rank_by_tokens al canonical_tokens top_k_original
  let top_canonicalized := top_original.map
    (fun x => (x.1, _alias_to_transformed_string x.1 rep_map, x.2.1, x.2.2))
  ⟨rep_map, transformed_aliases, canonical_tokens, top_original, top_canonicalized⟩

end Orderly

namespace Orderly

/-! The decision engine of `sku_curation_cli.py`. -/

/-- Decision literal `"AUTO"`. -/
def AUTO : Str := strOf "AUTO"

/-- Decision literal `"NEED_APPROVAL"`. -/
def NEED : Str := strOf "NEED_APPROVAL"

/-- Decision literal `"APPROVED"`. -/
def APPROVED : Str := strOf "APPROVED"

/-- Source literal `"approved_seed"`. -/
def SRC_APPROVED : Str := strOf "approved_seed"

/-- Source literal `"auto_ref"`. -/
def SRC_AUTO : Str := strOf "auto_ref"

/-- One row of the exported curation table. -/
structure CurationRecord where
  sku_id : Str
  raw_names : Str
  match_name : Str
  match_score : ℚ
  final_sku_name : Str
  decision : Str
deriving DecidableEq, Repr

/-- Ranked canonicalized aliases a group's descriptions produce inside
`process_sku_group`: the `top_k_canonicalized` field of the pipeline run
with the CLI's tuned parameters (`max_edit_distance=2`,
`top_m_canonical_tokens=2`, `top_k_original=3`).  Each entry is
(alias, canonicalized alias, score, frequency). -/
def topAliases (descriptions : List Str) : List (Str × Str × ℚ × Nat) :=
  (transform_aliases_with_canonical_tokens descriptions 2 4 2 3).top_k_canonicalized

/-- Score `s1` of the rank-0 alias:
`top_aliases[0]["score"] if top_aliases else 0`. -/
def topScore (ta : List (Str × Str × ℚ × Nat)) : ℚ :=
  match ta with
  | [] => 0
  | x :: _ => x.2.2.1

/-- Score `s2` of the rank-1 alias:
`top_aliases[1]["score"] if len(top_aliases) > 1 else 0`. -/
def runnerUpScore (ta : List (Str × Str × ℚ × Nat)) : ℚ :=
  match ta with
  | _ :: y :: _ => y.2.2.1
  | _ => 0

/-- Canonicalized text of the rank-0 alias, empty when there is none. -/
def topCanonical (ta : List (Str × Str × ℚ × Nat)) : Str :=
  match ta with
  | [] => []
  | x :: _ => x.2.1

/-- Original text of the rank-0 alias, empty when there is none. -/
def topOriginal (ta : List (Str × Str × ℚ × Nat)) : Str :=
  match ta with
  | [] => []
  | x :: _ => x.1

/-- Embedding of `process_sku_group`: run the cleaning pipeline with the
CLI's tuned parameters, read off the top and runner-up scores, pad the
canonicalized alternatives (`alt_names`) to three entries, and apply the
strict margin-and-threshold rule. -/
def process_sku_group (sku_id : Str) (descriptions : List Str) : CurationRecord :=
  let top_aliases := topAliases descriptions
  let top_candidate_score := topScore top_aliases
  let runner_up_score := runnerUpScore top_aliases
  let alt_names := top_aliases.map (fun x => x.2.1) ++
    List.replicate (3 - top_aliases.length) []
  { sku_id := sku_id
    raw_names := joinComma descriptions
    match_name := alt_names.headD []
    match_score := top_candidate_score
    final_sku_name :=
      if runner_up_score < top_candidate_score ∧ 80 < top_candidate_score then
        alt_names.headD []
      else []
    decision :=
      if runner_up_score < top_candidate_score ∧ 80 < top_candidate_score then AUTO
      else NEED }

end Orderly

namespace Orderly

/-! The versioned seed merge of `generate_sku_seed.py`. -/

/-- One row of the persisted seed table. -/
structure SeedRow where
  sku_id : Str
  canonical_name : Str
  source : Str
  effective_from : Str
  version : Str
deriving DecidableEq, Repr

/-- Embedding of `src_priority`: `approved_seed` is 2, `auto_ref` is 1,
anything else 0. -/
def src_priority (s : Str) : Nat :=
  if s == SRC_APPROVED then 2 else if s == SRC_AUTO then 1 else 0

/-- Stable ascending sort by `sku_id`, the final
`sort_values("sku_id")`. -/
def sortBySku (l : List SeedRow) : List SeedRow :=
  l.insertionSort (fun x y => (!lexLt y.sku_id x.sku_id) = true)

/-- One iteration of the merge loop of `merge_seed`: insert the incoming
row when its `sku_id` is absent, otherwise replace the present row
exactly when the incoming source priority is at least the existing
one. -/
def mergeStep (acc : List SeedRow) (r : SeedRow) : List SeedRow :=
  match acc.find? (fun e => e.sku_id == r.sku_id) with
  | none => acc ++ [r]
  | some e =>
    if src_priority e.source ≤ src_priority r.source then
      acc.map (fun e2 => if e2.sku_id == r.sku_id then r else e2)
    else acc

/-- Embedding of `merge_seed`. -/
def merge_seed (existing new_rows : List SeedRow) : List SeedRow :=
  if existing.isEmpty then sortBySku new_rows
  else sortBySku (new_rows.foldl mergeStep existing)

/-- Numeric value of an ASCII digit string. -/
def natOfDigits (ds : Str) : Nat := ds.foldl (fun acc d => acc * 10 + (d - 48)) 0

/-- Parse a full match of the regex `v(\d+)(?:\.(\d+))?`; an absent
minor group counts as 0. -/
def parseVersion (s : Str) : Option (Nat × Nat) :=
  match s with
  | [] => none
  | c :: rest =>
    if c = 118 then
      let ds := rest.takeWhile isDigitCp
      let rest2 := rest.dropWhile isDigitCp
      if ds.isEmpty then none else
      match rest2 with
      | [] => some (natOfDigits ds, 0)
      | d :: rest3 =>
        if d = 46 then
          let ds2 := rest3.takeWhile isDigitCp
          let rest4 := rest3.dropWhile isDigitCp
          if ds2.isEmpty then none
          else if rest4.isEmpty then some (natOfDigits ds, natOfDigits ds2)
          else none
        else none
    else none

/-- Embedding of `semver_tuple`: empty or unparseable version strings
become `(0, 0)`; the string is stripped before matching. -/
def semver_tuple (v : Str) : Nat × Nat :=
  if v.isEmpty then (0, 0)
  else match parseVersion (stripStr v) with
    | some p => p
    | none => (0, 0)

/-- Maximum of two version tuples in Python tuple order. -/
def maxPair (a b : Nat × Nat) : Nat × Nat :=
  if a.1 < b.1 then b else if b.1 < a.1 then a else (a.1, max a.2 b.2)

/-- Decimal digit string of a natural number. -/
def natToStr (n : Nat) : Str := (Nat.toDigits 10 n).map Char.toNat

/-- Embedding of `bump_version_auto`: `v0.1` for an empty seed,
otherwise the lexicographic maximum of the parsed version tuples of the
whole seed with the minor component bumped.  Folding `maxPair` from
`(0, 0)` equals the maximum of the set of tuples because every tuple
dominates `(0, 0)`. -/
def bump_version_auto (existing : List SeedRow) : Str :=
  if existing.isEmpty then strOf "v0.1"
  else
    let m := (existing.map (fun r => semver_tuple r.version)).foldl maxPair (0, 0)
    strOf "v" ++ natToStr m.1 ++ strOf "." ++ natToStr (m.2 + 1)

/-- One row of the reviewed/approved curation export, after
`normalize_cols`. -/
structure CurationRow where
  sku_id : Str
  final_sku_name : Str
  decision : Str
deriving DecidableEq, Repr

/-- Embedding of `build_new_rows`: normalize decisions, keep only
`APPROVED`/`AUTO` rows, map to seed rows stamped uniformly with
`eff_from` and `version`, and fail on blank `sku_id` or empty
`canonical_name`. -/
def build_new_rows (approved : List CurationRow) (eff_from version : Str) :
    Except Str (List SeedRow) :=
  let rows := approved.map (fun r =>
    { r with decision := upperStr (stripStr r.decision) })
  let kept := rows.filter (fun r => r.decision == APPROVED || r.decision == AUTO)
  if kept.isEmpty then .ok [] else
  let mapped := kept.map (fun r =>
    { sku_id := r.sku_id
      canonical_name := stripStr r.final_sku_name
      source := if r.decision == APPROVED then SRC_APPROVED else SRC_AUTO
      effective_from := eff_from
      version := version : SeedRow })
  if mapped.any (fun r => (stripStr r.sku_id).isEmpty) then
    .error (strOf "null or empty sku_id in approved CSV")
  else if mapped.any (fun r => r.canonical_name.isEmpty) then
    .error (strOf "empty canonical_name")
  else .ok mapped

/-- Model of `final_seed["sku_id"].duplicated().any()`. -/
def dupSkuB : List SeedRow → Bool
  | [] => false
  | r :: rest => rest.any (fun e => e.sku_id == r.sku_id) || dupSkuB rest

/-- Embedding of the tail of `main`: merge, then validate the final seed
before any output.  `Except.ok` carries exactly the rows that get
written to the seed file; `Except.error` models `sys.exit` with nothing
written. -/
def main_merge (existing new_rows : List SeedRow) : Except Str (List SeedRow) :=
  let final_seed := merge_seed existing new_rows
  if dupSkuB final_seed then .error (strOf "duplicate sku_id in final seed")
  else if final_seed.any (fun r => (stripStr r.canonical_name).isEmpty) then
    .error (strOf "empty canonical_name in final seed after merge")
  else .ok final_seed

end Orderly

namespace Orderly

/-! Helper observers used to state the specification theorems. -/

/-- Row found for a key in a seed table, the Python
`sku_id`-indexed lookup. -/
def seedLookup (l : List SeedRow) (k : Str) : Option SeedRow :=
  l.find? (fun e => e.sku_id == k)

/-- The seed table has pairwise distinct `sku_id` keys. -/
abbrev keysNodup (l : List SeedRow) : Prop :=
  (l.map (fun r => r.sku_id)).Nodup

/-- Maximum parsed version tuple over a seed, starting from `(0, 0)`. -/
def maxTuple (existing : List SeedRow) : Nat × Nat :=
  (existing.map (fun r => semver_tuple r.version)).foldl maxPair (0, 0)

/-- Python tuple `≤` on version pairs. -/
def pairLe (a b : Nat × Nat) : Prop := a.1 < b.1 ∨ (a.1 = b.1 ∧ a.2 ≤ b.2)

/-- The `(score, frequency)` sort key of a ranked alias. -/
def rankKey (x : Str × ℚ × Nat) : ℚ × Nat := (x.2.1, x.2.2)

end Orderly

namespace Orderly

/-! Shared helper lemmas. -/

/-- The curation record of a group, written with the rank-0 observers. -/
theorem process_sku_group_eq (sku : Str) (descriptions : List Str) :
    process_sku_group sku descriptions =
      { sku_id := sku
        raw_names := joinComma descriptions
        match_name := topCanonical (topAliases descriptions)
        match_score := topScore (topAliases descriptions)
        final_sku_name :=
          if runnerUpScore (topAliases descriptions) < topScore (topAliases descriptions) ∧
              80 < topScore (topAliases descriptions) then
            topCanonical (topAliases descriptions)
          else []
        decision :=
          if runnerUpScore (topAliases descriptions) < topScore (topAliases descriptions) ∧
              80 < topScore (topAliases descriptions) then AUTO
          else NEED } := by
  have headD_alt : ∀ ta : List (Str × Str × ℚ × Nat),
      (ta.map (fun x => x.2.1) ++ List.replicate (3 - ta.length) ([] : Str)).headD [] =
        topCanonical ta := by
    intro ta
    rcases ta with _ | ⟨x, rest⟩ <;> rfl
  simp only [process_sku_group, headD_alt]

/-- Each canonicalized ranked alias is the corresponding original ranked
alias paired with its `rep_map` canonicalization. -/
theorem transform_top_k_canonicalized_eq (aliases : List Str) (e m tm tk : Nat) :
    (transform_aliases_with_canonical_tokens aliases e m tm tk).top_k_canonicalized =
      (transform_aliases_with_canonical_tokens aliases e m tm tk).top_k_original.map
        (fun x => (x.1,
          _alias_to_transformed_string x.1
            (transform_aliases_with_canonical_tokens aliases e m tm tk).rep_map,
          x.2.1, x.2.2)) := by
  unfold transform_aliases_with_canonical_tokens
  by_cases h : (aliases.filter (fun a => !a.isEmpty && !(stripStr a).isEmpty)).isEmpty = true
  · rw [if_pos h]
    rfl
  · rw [if_neg h]

/-- A blank-filtered group makes the pipeline return the empty result. -/
theorem transform_blank_eq_empty (aliases : List Str) (e m tm tk : Nat)
    (h : (aliases.filter (fun a => !a.isEmpty && !(stripStr a).isEmpty)).isEmpty = true) :
    transform_aliases_with_canonical_tokens aliases e m tm tk =
      { rep_map := [], transformed_aliases := [], canonical_tokens := [],
        top_k_original := [], top_k_canonicalized := [] } := by
  unfold transform_aliases_with_canonical_tokens
  rw [if_pos h]

end Orderly

namespace Orderly

/-! Claim C1. -/

/-- C1 counterexample: on the end-to-end scenario group, the ranked
top-2 list is not the claimed
`[("wireless keyboard black", 100, 2), ("black wireless keyboard", 100, 1)]`;
the actual scores are 85 (the aliases have the extra token `black`
relative to the two canonical tokens) and rank-1 is the second
occurrence of the duplicated alias `"wireless keyboard black"`. -/
theorem c1_counterexample :
    (transform_aliases_with_canonical_tokens
      [strOf "wireless keybord black", strOf "wireless keyboard black",
       strOf "wireless keyboard black", strOf "black wireless keyboard"]
      1 4 2 2).top_k_original ≠
    [(strOf "wireless keyboard black", 100, 2), (strOf "black wireless keyboard", 100, 1)] := by
  decide

/-- C1 (amended): on the group
`["wireless keybord black", "wireless keyboard black",
"wireless keyboard black", "black wireless keyboard"]` with
`max_edit_distance=1, min_rep_len=4, top_m=2, top_k=2`, the pipeline
yields `rep_map["keybord"] == "keyboard"`, canonical tokens exactly
`["keyboard", "wireless"]` in that order, rank-0 alias
`"wireless keyboard black"` with score 85 and frequency 2, rank-1 the
second occurrence of the same duplicated alias
`"wireless keyboard black"` with score 85 and frequency 2, and the
decision of the engine on this group is `NEED_APPROVAL` because
`s1 == s2`. -/
theorem c1_end_to_end :
    repGet (transform_aliases_with_canonical_tokens
      [strOf "wireless keybord black", strOf "wireless keyboard black",
       strOf "wireless keyboard black", strOf "black wireless keyboard"]
      1 4 2 2).rep_map (strOf "keybord") = strOf "keyboard" ∧
    (transform_aliases_with_canonical_tokens
      [strOf "wireless keybord black", strOf "wireless keyboard black",
       strOf "wireless keyboard black", strOf "black wireless keyboard"]
      1 4 2 2).canonical_tokens = [strOf "keyboard", strOf "wireless"] ∧
    (transform_aliases_with_canonical_tokens
      [strOf "wireless keybord black", strOf "wireless keyboard black",
       strOf "wireless keyboard black", strOf "black wireless keyboard"]
      1 4 2 2).top_k_original =
      [(strOf "wireless keyboard black", 85, 2), (strOf "wireless keyboard black", 85, 2)] ∧
    topScore (topAliases
      [strOf "wireless keybord black", strOf "wireless keyboard black",
       strOf "wireless keyboard black", strOf "black wireless keyboard"]) =
      runnerUpScore (topAliases
      [strOf "wireless keybord black", strOf "wireless keyboard black",
       strOf "wireless keyboard black", strOf "black wireless keyboard"]) ∧
    (process_sku_group (strOf "SKU001")
      [strOf "wireless keybord black", strOf "wireless keyboard black",
       strOf "wireless keyboard black", strOf "black wireless keyboard"]).decision = NEED := by
  decide

end Orderly

namespace Orderly

/-! Claim C8: idempotence of `_normalize`. -/

/-- Unfolding of `joinSep` on a list with at least two tokens. -/
theorem joinSep_cons₂ (sep t t2 : Str) (rest : List Str) :
    joinSep sep (t :: t2 :: rest) = t ++ sep ++ joinSep sep (t2 :: rest) := rfl

/-- Lowercasing a codepoint twice is the same as once. -/
theorem toLowerCp_idem (d : Nat) : toLowerCp (toLowerCp d) = toLowerCp d := by
  unfold toLowerCp
  by_cases h : 65 ≤ d ∧ d ≤ 90
  · rw [if_pos h, if_neg (by omega)]
  · rw [if_neg h, if_neg h]

/-- Codepoints of a run-replaced string are the replacement or
original codepoints that fail the predicate. -/
theorem mem_replaceRunsAux (p : Nat → Bool) (rep : Nat) :
    ∀ (x : Str) (flag : Bool) (c : Nat), c ∈ replaceRunsAux p rep x flag →
      c = rep ∨ (c ∈ x ∧ p c = false) := by
  intro x
  induction x with
  | nil =>
    intro flag c hc
    cases hc
  | cons d x' ih =>
    intro flag c hc
    rw [replaceRunsAux] at hc
    by_cases hpd : p d = true
    · rw [if_pos hpd] at hc
      cases flag with
      | true =>
        rw [if_pos rfl] at hc
        rcases ih true c hc with h | ⟨hm, hp⟩
        · exact Or.inl h
        · exact Or.inr ⟨List.mem_cons_of_mem d hm, hp⟩
      | false =>
        rw [if_neg (by simp)] at hc
        rcases List.mem_cons.mp hc with rfl | hc2
        · exact Or.inl rfl
        · rcases ih true c hc2 with h | ⟨hm, hp⟩
          · exact Or.inl h
          · exact Or.inr ⟨List.mem_cons_of_mem d hm, hp⟩
    · rw [if_neg hpd] at hc
      rcases List.mem_cons.mp hc with rfl | hc2
      · exact Or.inr ⟨List.mem_cons_self c x', Bool.eq_false_iff.mpr hpd⟩
      · rcases ih false c hc2 with h | ⟨hm, hp⟩
        · exact Or.inl h
        · exact Or.inr ⟨List.mem_cons_of_mem d hm, hp⟩

/-- Stripping only removes codepoints. -/
theorem mem_stripStr (x : Str) (c : Nat) (hc : c ∈ stripStr x) : c ∈ x := by
  unfold stripStr at hc
  rw [List.mem_reverse] at hc
  have hc2 := (List.dropWhile_sublist isSpaceCp).subset hc
  rw [List.mem_reverse] at hc2
  exact (List.dropWhile_sublist isSpaceCp).subset hc2

/-- Tokens produced by the whitespace splitter are nonempty, made of
codepoints of the input or the accumulator, and whitespace-free. -/
theorem splitWsAux_token (x : Str) :
    ∀ acc : Str, (∀ c ∈ acc, isSpaceCp c = false) → ∀ t ∈ splitWsAux x acc,
      t ≠ [] ∧ ∀ c ∈ t, (c ∈ x ∨ c ∈ acc) ∧ isSpaceCp c = false := by
  induction x with
  | nil =>
    intro acc hacc t ht
    rw [splitWsAux] at ht
    by_cases hne : acc.isEmpty = true
    · rw [if_pos hne] at ht
      cases ht
    · rw [if_neg hne] at ht
      rcases List.mem_singleton.mp ht with rfl
      refine ⟨?_, ?_⟩
      · intro habs
        rw [List.reverse_eq_nil_iff] at habs
        rw [habs] at hne
        exact hne rfl
      · intro c hc
        exact ⟨Or.inr (List.mem_reverse.mp hc), hacc c (List.mem_reverse.mp hc)⟩
  | cons d x' ih =>
    intro acc hacc t ht
    rw [splitWsAux] at ht
    by_cases hd : isSpaceCp d = true
    · rw [if_pos hd] at ht
      by_cases hne : acc.isEmpty = true
      · rw [if_pos hne] at ht
        obtain ⟨h1, h2⟩ := ih [] (by intro c hc; cases hc) t ht
        refine ⟨h1, ?_⟩
        intro c hc
        obtain ⟨hm, hs⟩ := h2 c hc
        rcases hm with hm | hm
        · exact ⟨Or.inl (List.mem_cons_of_mem d hm), hs⟩
        · cases hm
      · rw [if_neg hne] at ht
        rcases List.mem_cons.mp ht with rfl | ht2
        · refine ⟨?_, ?_⟩
          · intro habs
            rw [List.reverse_eq_nil_iff] at habs
            rw [habs] at hne
            exact hne rfl
          · intro c hc
            exact ⟨Or.inr (List.mem_reverse.mp hc), hacc c (List.mem_reverse.mp hc)⟩
        · obtain ⟨h1, h2⟩ := ih [] (by intro c hc; cases hc) t ht2
          refine ⟨h1, ?_⟩
          intro c hc
          obtain ⟨hm, hs⟩ := h2 c hc
          rcases hm with hm | hm
          · exact ⟨Or.inl (List.mem_cons_of_mem d hm), hs⟩
          · cases hm
    · rw [if_neg hd] at ht
      obtain ⟨h1, h2⟩ := ih (d :: acc)
        (by
          intro c hc
          rcases List.mem_cons.mp hc with rfl | hc2
          · exact Bool.eq_false_iff.mpr hd
          · exact hacc c hc2) t ht
      refine ⟨h1, ?_⟩
      intro c hc
      obtain ⟨hm, hs⟩ := h2 c hc
      rcases hm with hm | hm
      · exact ⟨Or.inl (List.mem_cons_of_mem d hm), hs⟩
      · rcases List.mem_cons.mp hm with rfl | hm2
        · exact ⟨Or.inl (List.mem_cons_self c x'), hs⟩
        · exact ⟨Or.inr hm2, hs⟩

/-- Tokens of `splitWs` are nonempty, whitespace-free parts of the
input. -/
theorem splitWs_token (x : Str) :
    ∀ t ∈ splitWs x, t ≠ [] ∧ ∀ c ∈ t, c ∈ x ∧ isSpaceCp c = false := by
  intro t ht
  obtain ⟨h1, h2⟩ := splitWsAux_token x [] (by intro c hc; cases hc) t ht
  refine ⟨h1, ?_⟩
  intro c hc
  obtain ⟨hm, hs⟩ := h2 c hc
  rcases hm with hm | hm
  · exact ⟨hm, hs⟩
  · cases hm

/-- Codepoints of a space-joined token list are the space or token
codepoints. -/
theorem mem_joinSpace (toks : List Str) (c : Nat) :
    c ∈ joinSep [32] toks → c = 32 ∨ ∃ t ∈ toks, c ∈ t := by
  induction toks with
  | nil =>
    intro hc
    cases hc
  | cons t rest ih =>
    intro hc
    rcases rest with _ | ⟨t2, rest'⟩
    · exact Or.inr ⟨t, List.mem_cons_self t [], hc⟩
    · rw [joinSep_cons₂] at hc
      rcases List.mem_append.mp hc with hc1 | hc2
      · rcases List.mem_append.mp hc1 with hc3 | hc4
        · exact Or.inr ⟨t, List.mem_cons_self t _, hc3⟩
        · exact Or.inl (List.mem_singleton.mp hc4)
      · rcases ih hc2 with h | ⟨u, hu, hcu⟩
        · exact Or.inl h
        · exact Or.inr ⟨u, List.mem_cons_of_mem t hu, hcu⟩

/-- Pointwise-fixed maps are the identity. -/
theorem map_eq_self_of (l : Str) (f : Nat → Nat) (h : ∀ c ∈ l, f c = c) :
    l.map f = l := by
  induction l with
  | nil => rfl
  | cons d l' ih =>
    rw [List.map_cons, h d (List.mem_cons_self d l'),
      ih (fun c hc => h c (List.mem_cons_of_mem d hc))]

/-- Run replacement leaves a string without matching codepoints
unchanged. -/
theorem replaceRunsAux_eq_self (p : Nat → Bool) (rep : Nat) :
    ∀ (x : Str) (flag : Bool), (∀ c ∈ x, p c = false) →
      replaceRunsAux p rep x flag = x := by
  intro x
  induction x with
  | nil =>
    intro flag _
    rfl
  | cons d x' ih =>
    intro flag h
    rw [replaceRunsAux, if_neg (by rw [h d (List.mem_cons_self d x')]; simp),
      ih false (fun c hc => h c (List.mem_cons_of_mem d hc))]

/-- Run replacement passes over a nonempty prefix without matching
codepoints, resetting the in-run flag. -/
theorem replaceRunsAux_append_nonp (p : Nat → Bool) (rep : Nat) :
    ∀ x : Str, x ≠ [] → (∀ c ∈ x, p c = false) → ∀ (y : Str) (flag : Bool),
      replaceRunsAux p rep (x ++ y) flag = x ++ replaceRunsAux p rep y false := by
  intro x
  induction x with
  | nil =>
    intro h
    exact absurd rfl h
  | cons d x' ih =>
    intro _ hcp y flag
    have hd : p d = false := hcp d (List.mem_cons_self d x')
    rw [List.cons_append, replaceRunsAux, if_neg (by rw [hd]; simp)]
    rcases x' with _ | ⟨e, x''⟩
    · rfl
    · rw [ih (List.cons_ne_nil e x'') (fun c hc => hcp c (List.mem_cons_of_mem d hc)) y false]
      rfl

/-- Collapsing whitespace runs leaves a single-space join of nonempty,
space-free tokens unchanged. -/
theorem collapse_joinSep (toks : List Str)
    (h : ∀ tok ∈ toks, tok ≠ [] ∧ ∀ c ∈ tok, isSpaceCp c = false) :
    ∀ flag : Bool, replaceRunsAux isSpaceCp 32 (joinSep [32] toks) flag =
      joinSep [32] toks := by
  induction toks with
  | nil =>
    intro flag
    rfl
  | cons t rest ih =>
    intro flag
    have ht := h t (List.mem_cons_self t rest)
    rcases rest with _ | ⟨t2, rest'⟩
    · show replaceRunsAux isSpaceCp 32 t flag = t
      have h2 := replaceRunsAux_append_nonp isSpaceCp 32 t ht.1 ht.2 [] flag
      rw [List.append_nil] at h2
      rw [h2]
      show t ++ ([] : Str) = t
      exact List.append_nil t
    · show replaceRunsAux isSpaceCp 32 (t ++ [32] ++ joinSep [32] (t2 :: rest')) flag =
        t ++ [32] ++ joinSep [32] (t2 :: rest')
      have hassoc : t ++ [32] ++ joinSep [32] (t2 :: rest') =
          t ++ (32 :: joinSep [32] (t2 :: rest')) := by
        rw [List.append_assoc]
        rfl
      rw [hassoc, replaceRunsAux_append_nonp isSpaceCp 32 t ht.1 ht.2 _ flag]
      show t ++ (32 :: replaceRunsAux isSpaceCp 32 (joinSep [32] (t2 :: rest')) true) = _
      rw [ih (fun tok htok => h tok (List.mem_cons_of_mem t htok)) true]

/-- A string with a non-space head and non-space last codepoint is
unchanged by stripping. -/
theorem stripStr_eq_self (x : Str)
    (hhead : x = [] ∨ ∃ c x', x = c :: x' ∧ isSpaceCp c = false)
    (hlast : x = [] ∨ ∃ c y', x.reverse = c :: y' ∧ isSpaceCp c = false) :
    stripStr x = x := by
  rcases hhead with rfl | ⟨c, x', rfl, hc⟩
  · rfl
  · rcases hlast with habs | ⟨d, y', hrev, hd⟩
    · exact absurd habs (List.cons_ne_nil c x')
    · unfold stripStr
      rw [List.dropWhile_cons, if_neg (by rw [hc]; simp), hrev, List.dropWhile_cons,
        if_neg (by rw [hd]; simp), ← hrev, List.reverse_reverse]

/-- A space-join of good tokens is empty or starts with a non-space
codepoint. -/
theorem joinSep_head (toks : List Str)
    (h : ∀ tok ∈ toks, tok ≠ [] ∧ ∀ c ∈ tok, isSpaceCp c = false) :
    joinSep [32] toks = [] ∨
      ∃ c x', joinSep [32] toks = c :: x' ∧ isSpaceCp c = false := by
  rcases toks with _ | ⟨t, rest⟩
  · exact Or.inl rfl
  · right
    have ht := h t (List.mem_cons_self t rest)
    rcases t with _ | ⟨c, t'⟩
    · exact absurd rfl ht.1
    · have hc := ht.2 c (List.mem_cons_self c t')
      rcases rest with _ | ⟨t2, rest'⟩
      · exact ⟨c, t', rfl, hc⟩
      · exact ⟨c, t' ++ [32] ++ joinSep [32] (t2 :: rest'), by rw [joinSep_cons₂]; rfl, hc⟩

/-- Nonempty good token lists give a nonempty join. -/
theorem joinSep_ne_nil (t : Str) (rest : List Str) (ht : t ≠ []) :
    joinSep [32] (t :: rest) ≠ [] := by
  rcases t with _ | ⟨c, t'⟩
  · exact absurd rfl ht
  · rcases rest with _ | ⟨t2, rest'⟩
    · exact List.cons_ne_nil c t'
    · rw [joinSep_cons₂]
      intro habs
      rw [List.append_eq_nil] at habs
      rw [List.append_eq_nil] at habs
      exact List.cons_ne_nil c t' habs.1.1

/-- A space-join of good tokens is empty or ends with a non-space
codepoint. -/
theorem joinSep_last (toks : List Str)
    (h : ∀ tok ∈ toks, tok ≠ [] ∧ ∀ c ∈ tok, isSpaceCp c = false) :
    joinSep [32] toks = [] ∨
      ∃ c y', (joinSep [32] toks).reverse = c :: y' ∧ isSpaceCp c = false := by
  induction toks with
  | nil => exact Or.inl rfl
  | cons t rest ih =>
    right
    have ht := h t (List.mem_cons_self t rest)
    rcases rest with _ | ⟨t2, rest'⟩
    · cases hres : t.reverse with
      | nil =>
        exact absurd (by rw [← List.reverse_reverse t, hres]; rfl) ht.1
      | cons c y' =>
        have hc : c ∈ t := List.mem_reverse.mp (hres ▸ List.mem_cons_self c y')
        exact ⟨c, y', hres, ht.2 c hc⟩
    · rcases ih (fun tok htok => h tok (List.mem_cons_of_mem t htok)) with habs |
        ⟨c, y', hrev, hc⟩
      · exact absurd habs (joinSep_ne_nil t2 rest'
          (h t2 (List.mem_cons_of_mem t (List.mem_cons_self t2 rest'))).1)
      · refine ⟨c, y' ++ (32 :: t.reverse), ?_, hc⟩
        rw [joinSep_cons₂, List.reverse_append, List.reverse_append, hrev]
        rfl

/-- The whitespace splitter passes over a space-free prefix,
accumulating it reversed. -/
theorem splitWsAux_append_nonspace (x : Str) :
    (∀ c ∈ x, isSpaceCp c = false) → ∀ (y acc : Str),
      splitWsAux (x ++ y) acc = splitWsAux y (x.reverse ++ acc) := by
  induction x with
  | nil =>
    intro _ y acc
    rfl
  | cons d x' ih =>
    intro hc y acc
    have hd := hc d (List.mem_cons_self d x')
    rw [List.cons_append, splitWsAux, if_neg (by rw [hd]; simp),
      ih (fun c h2 => hc c (List.mem_cons_of_mem d h2)) y (d :: acc),
      List.reverse_cons, List.append_assoc]
    rfl

/-- Splitting a single-space join of nonempty, space-free tokens
recovers the tokens. -/
theorem splitWs_joinSep (toks : List Str)
    (h : ∀ tok ∈ toks, tok ≠ [] ∧ ∀ c ∈ tok, isSpaceCp c = false) :
    splitWs (joinSep [32] toks) = toks := by
  induction toks with
  | nil => rfl
  | cons t rest ih =>
    have ht := h t (List.mem_cons_self t rest)
    have hne : t.reverse.isEmpty = false := by
      rw [Bool.eq_false_iff]
      intro habs
      rw [List.isEmpty_iff, List.reverse_eq_nil_iff] at habs
      exact ht.1 habs
    rcases rest with _ | ⟨t2, rest'⟩
    · show splitWsAux (joinSep [32] [t]) [] = [t]
      have heq := splitWsAux_append_nonspace t ht.2 [] []
      rw [List.append_nil, List.append_nil] at heq
      rw [show joinSep [32] [t] = t from rfl, heq, splitWsAux, if_neg (by rw [hne]; simp),
        List.reverse_reverse]
    · show splitWsAux (joinSep [32] (t :: t2 :: rest')) [] = t :: t2 :: rest'
      have hassoc : joinSep [32] (t :: t2 :: rest') =
          t ++ (32 :: joinSep [32] (t2 :: rest')) := by
        rw [joinSep_cons₂, List.append_assoc]
        rfl
      rw [hassoc, splitWsAux_append_nonspace t ht.2 _ [], List.append_nil]
      rw [show splitWsAux (32 :: joinSep [32] (t2 :: rest')) t.reverse =
          t.reverse.reverse :: splitWsAux (joinSep [32] (t2 :: rest')) [] from by
        rw [splitWsAux, if_pos (show isSpaceCp 32 = true from rfl), if_neg (by rw [hne]; simp)]]
      rw [List.reverse_reverse]
      rw [show splitWsAux (joinSep [32] (t2 :: rest')) [] =
        splitWs (joinSep [32] (t2 :: rest')) from rfl]
      rw [ih (fun tok htok => h tok (List.mem_cons_of_mem t htok))]

/-- Tokens kept by `_normalize` are nonempty and consist of word
codepoints that are not whitespace and already lowercase. -/
theorem tok_facts (s : Str) :
    ∀ t ∈ splitWs (stripStr (replaceRuns isSpaceCp 32
        (replaceRuns isPunctCp 32 (lowerStr s)))),
      t ≠ [] ∧ ∀ c ∈ t, isSpaceCp c = false ∧ isWordCp c = true ∧ toLowerCp c = c := by
  intro t ht
  obtain ⟨hne, hmem⟩ := splitWs_token _ t ht
  refine ⟨hne, ?_⟩
  intro c hc
  obtain ⟨hcx, hcsp⟩ := hmem c hc
  have hcx2 := mem_stripStr _ _ hcx
  rcases mem_replaceRunsAux isSpaceCp 32 _ false c hcx2 with rfl | ⟨hcx3, _⟩
  · exact absurd hcsp (by decide)
  · rcases mem_replaceRunsAux isPunctCp 32 _ false c hcx3 with rfl | ⟨hcx4, hpunct⟩
    · exact absurd hcsp (by decide)
    · have hword : isWordCp c = true := by
        cases hw : isWordCp c with
        | true => rfl
        | false =>
          rw [isPunctCp, hw, hcsp] at hpunct
          exact absurd hpunct (by decide)
      refine ⟨hcsp, hword, ?_⟩
      rcases List.mem_map.mp hcx4 with ⟨d, _, rfl⟩
      exact toLowerCp_idem d

/-- C8: `_normalize` is idempotent. -/
theorem c8_normalize_idempotent (s : Str) :
    _normalize (_normalize s) = _normalize s := by
  have hshape : ∀ u : Str, _normalize u =
      joinSpace ((splitWs (stripStr (replaceRuns isSpaceCp 32
        (replaceRuns isPunctCp 32 (lowerStr u))))).filter
        (fun t => !t.isEmpty && !(ENGLISH_STOP_WORDS.contains t))) := fun _ => rfl
  rw [hshape (_normalize s), hshape s]
  set toks := (splitWs (stripStr (replaceRuns isSpaceCp 32
    (replaceRuns isPunctCp 32 (lowerStr s))))).filter
    (fun t => !t.isEmpty && !(ENGLISH_STOP_WORDS.contains t)) with htoksdef
  have htokgood : ∀ t ∈ toks, t ≠ [] ∧
      ∀ c ∈ t, isSpaceCp c = false ∧ isWordCp c = true ∧ toLowerCp c = c := by
    rw [htoksdef]
    exact fun t ht => tok_facts s t (List.mem_of_mem_filter ht)
  have hgood : ∀ tok ∈ toks, tok ≠ [] ∧ ∀ c ∈ tok, isSpaceCp c = false :=
    fun tok htok => ⟨(htokgood tok htok).1, fun c hc => ((htokgood tok htok).2 c hc).1⟩
  have hcp : ∀ c ∈ joinSpace toks,
      (isSpaceCp c = false ∧ isWordCp c = true ∧ toLowerCp c = c) ∨ c = 32 := by
    intro c hc
    rcases mem_joinSpace toks c hc with rfl | ⟨t, ht, hct⟩
    · exact Or.inr rfl
    · exact Or.inl ((htokgood t ht).2 c hct)
  have h1 : lowerStr (joinSpace toks) = joinSpace toks := by
    refine map_eq_self_of _ _ ?_
    intro c hc
    rcases hcp c hc with ⟨_, _, hl⟩ | rfl
    · exact hl
    · rfl
  have h2 : replaceRuns isPunctCp 32 (joinSpace toks) = joinSpace toks := by
    refine replaceRunsAux_eq_self isPunctCp 32 _ false ?_
    intro c hc
    rcases hcp c hc with ⟨_, hw, _⟩ | rfl
    · rw [isPunctCp, hw]
      rfl
    · rfl
  have h3 : replaceRuns isSpaceCp 32 (joinSpace toks) = joinSpace toks :=
    collapse_joinSep toks hgood false
  have h4 : stripStr (joinSpace toks) = joinSpace toks :=
    stripStr_eq_self _ (joinSep_head toks hgood) (joinSep_last toks hgood)
  have h5 : splitWs (joinSpace toks) = toks := splitWs_joinSep toks hgood
  have h6 : toks.filter (fun t => !t.isEmpty && !(ENGLISH_STOP_WORDS.contains t)) =
      toks := by
    rw [htoksdef, List.filter_filter]
    exact List.filter_congr (fun a _ => Bool.and_self _)
  rw [h1, h2, h3, h4, h5, h6]

end Orderly

namespace Orderly

/-! Claim C9, part 1: all scores lie in the range 0 to 100. -/

/-- Entries of the next LCS row grow by at most one over the previous
row's bound. -/
theorem lcsRowGo_le (ca : Nat) :
    ∀ (bs : Str) (ps : List Nat) (diag left i : Nat),
      (∀ x ∈ ps, x ≤ i) → diag ≤ i → left ≤ i + 1 →
      ∀ x ∈ lcsRowGo ca bs ps diag left, x ≤ i + 1 := by
  intro bs
  induction bs with
  | nil =>
    intro ps diag left i _ _ _ x hx
    cases hx
  | cons cb bs' ih =>
    intro ps diag left i hps hdiag hleft x hx
    cases ps with
    | nil => cases hx
    | cons pj ps' =>
      simp only [lcsRowGo] at hx
      have hcur : (if ca = cb then diag + 1 else max pj left) ≤ i + 1 := by
        by_cases hc : ca = cb
        · rw [if_pos hc]
          exact Nat.succ_le_succ hdiag
        · rw [if_neg hc]
          exact Nat.max_le.mpr
            ⟨(hps pj (List.mem_cons_self pj ps')).trans (Nat.le_succ i), hleft⟩
      rcases List.mem_cons.mp hx with rfl | hx2
      · exact hcur
      · exact ih ps' pj _ i (fun y hy => hps y (List.mem_cons_of_mem pj hy))
          (hps pj (List.mem_cons_self pj ps')) hcur x hx2

/-- Entries of the row after processing a prefix of the first string are
bounded by the number of processed codepoints. -/
theorem lcs_fold_row_le (b : Str) (a : Str) :
    ∀ (row : List Nat) (i : Nat), (∀ x ∈ row, x ≤ i) →
      ∀ x ∈ a.foldl (fun r ca => lcsRowGo ca b r 0 0) row, x ≤ i + a.length := by
  induction a with
  | nil =>
    intro row i h x hx
    simpa using h x hx
  | cons ca a' ih =>
    intro row i h x hx
    rw [List.foldl_cons] at hx
    have hstep : ∀ y ∈ lcsRowGo ca b row 0 0, y ≤ i + 1 := fun y hy =>
      lcsRowGo_le ca b row 0 0 i h (Nat.zero_le i) (Nat.zero_le _) y hy
    have := ih (lcsRowGo ca b row 0 0) (i + 1) hstep x hx
    rw [List.length_cons]
    omega

/-- The last entry with a default is a member of a nonempty list. -/
theorem getLastD_mem_of_ne_nil (l : List Nat) (d : Nat) (h : l ≠ []) :
    l.getLastD d ∈ l := by
  induction l generalizing d with
  | nil => exact absurd rfl h
  | cons x l' ih =>
    rcases l' with _ | ⟨y, l''⟩
    · exact List.mem_singleton.mpr rfl
    · rw [List.getLastD_cons]
      exact List.mem_cons_of_mem x (ih x (List.cons_ne_nil y l''))

/-- The LCS length never exceeds the first string's length. -/
theorem lcsLen_le_left (a b : Str) : lcsLen a b ≤ a.length := by
  unfold lcsLen
  have hrow := lcs_fold_row_le b a (List.replicate b.length 0) 0
    (by
      intro x hx
      rw [List.eq_of_mem_replicate hx])
  cases hfin : a.foldl (fun r ca => lcsRowGo ca b r 0 0) (List.replicate b.length 0) with
  | nil => exact Nat.zero_le _
  | cons y ys =>
    have hmem : (y :: ys).getLastD 0 ∈ y :: ys :=
      getLastD_mem_of_ne_nil (y :: ys) 0 (List.cons_ne_nil y ys)
    have := hrow ((y :: ys).getLastD 0) (by rw [hfin]; exact hmem)
    omega

/-- Entries of the next LCS row are bounded by their one-based column
index. -/
theorem lcsRowGo_col (ca : Nat) :
    ∀ (bs : Str) (ps : List Nat) (diag left j0 : Nat),
      List.Forall₂ (· ≤ ·) ps (List.range' (j0 + 1) ps.length) → diag ≤ j0 → left ≤ j0 →
      List.Forall₂ (· ≤ ·) (lcsRowGo ca bs ps diag left)
        (List.range' (j0 + 1) (lcsRowGo ca bs ps diag left).length) := by
  intro bs
  induction bs with
  | nil =>
    intro ps diag left j0 _ _ _
    exact List.Forall₂.nil
  | cons cb bs' ih =>
    intro ps diag left j0 hps hdiag hleft
    cases ps with
    | nil => exact List.Forall₂.nil
    | cons pj ps' =>
      rw [List.length_cons, List.range'_succ, List.forall₂_cons] at hps
      simp only [lcsRowGo]
      have hcur : (if ca = cb then diag + 1 else max pj left) ≤ j0 + 1 := by
        by_cases hc : ca = cb
        · rw [if_pos hc]
          exact Nat.succ_le_succ hdiag
        · rw [if_neg hc]
          exact Nat.max_le.mpr ⟨hps.1, hleft.trans (Nat.le_succ j0)⟩
      rw [List.length_cons, List.range'_succ, List.forall₂_cons]
      exact ⟨hcur, ih ps' pj _ (j0 + 1) hps.2 hps.1 hcur⟩

/-- Zero rows are bounded by any ascending range. -/
theorem replicate_zero_forall₂ : ∀ (n s : Nat),
    List.Forall₂ (· ≤ ·) (List.replicate n 0) (List.range' s n) := by
  intro n
  induction n with
  | zero =>
    intro s
    exact List.Forall₂.nil
  | succ n ih =>
    intro s
    rw [List.replicate_succ, List.range'_succ, List.forall₂_cons]
    exact ⟨Nat.zero_le s, ih (s + 1)⟩

/-- Every row arising in the LCS fold is bounded columnwise. -/
theorem lcs_fold_col (b : Str) (a : Str) :
    ∀ row : List Nat, List.Forall₂ (· ≤ ·) row (List.range' 1 row.length) →
      List.Forall₂ (· ≤ ·) (a.foldl (fun r ca => lcsRowGo ca b r 0 0) row)
        (List.range' 1 (a.foldl (fun r ca => lcsRowGo ca b r 0 0) row).length) := by
  induction a with
  | nil =>
    intro row h
    exact h
  | cons ca a' ih =>
    intro row h
    rw [List.foldl_cons]
    exact ih (lcsRowGo ca b row 0 0)
      (lcsRowGo_col ca b row 0 0 0 h (Nat.le_refl 0) (Nat.le_refl 0))

/-- The next LCS row is no longer than the remaining second string. -/
theorem lcsRowGo_length (ca : Nat) :
    ∀ (bs : Str) (ps : List Nat) (diag left : Nat),
      (lcsRowGo ca bs ps diag left).length ≤ bs.length := by
  intro bs
  induction bs with
  | nil =>
    intro ps diag left
    exact Nat.zero_le _
  | cons cb bs' ih =>
    intro ps diag left
    cases ps with
    | nil => exact Nat.zero_le _
    | cons pj ps' =>
      simp only [lcsRowGo, List.length_cons]
      exact Nat.succ_le_succ (ih ps' pj _)

/-- Rows in the LCS fold never outgrow the second string. -/
theorem lcs_fold_length (b : Str) (a : Str) :
    ∀ row : List Nat, row.length ≤ b.length →
      (a.foldl (fun r ca => lcsRowGo ca b r 0 0) row).length ≤ b.length := by
  induction a with
  | nil =>
    intro row h
    exact h
  | cons ca a' ih =>
    intro row _
    rw [List.foldl_cons]
    exact ih (lcsRowGo ca b row 0 0) (lcsRowGo_length ca b row 0 0)

/-- Monotone last entries along a pointwise bound. -/
theorem forall₂_getLastD :
    ∀ {l1 l2 : List Nat}, List.Forall₂ (· ≤ ·) l1 l2 →
      ∀ d1 d2 : Nat, d1 ≤ d2 → l1.getLastD d1 ≤ l2.getLastD d2 := by
  intro l1 l2 h
  induction h with
  | nil =>
    intro d1 d2 hd
    exact hd
  | cons hR _ ih =>
    intro d1 d2 _
    rw [List.getLastD_cons, List.getLastD_cons]
    exact ih _ _ hR

/-- Last entry of an ascending range. -/
theorem getLastD_range' : ∀ (n s d : Nat),
    (List.range' s n).getLastD d = if n = 0 then d else s + n - 1 := by
  intro n
  induction n with
  | zero =>
    intro s d
    rfl
  | succ n ih =>
    intro s d
    rw [List.range'_succ, List.getLastD_cons, ih (s + 1) s]
    by_cases h : n = 0
    · rw [if_pos h, if_neg (by omega)]
      omega
    · rw [if_neg h, if_neg (by omega)]
      omega

/-- The LCS length never exceeds the second string's length. -/
theorem lcsLen_le_right (a b : Str) : lcsLen a b ≤ b.length := by
  unfold lcsLen
  have hcol := lcs_fold_col b a (List.replicate b.length 0)
    (by
      rw [List.length_replicate]
      exact replicate_zero_forall₂ b.length 1)
  have hlen := lcs_fold_length b a (List.replicate b.length 0)
    (by rw [List.length_replicate])
  have hle := forall₂_getLastD hcol 0 0 (Nat.le_refl 0)
  rw [getLastD_range'] at hle
  by_cases hz :
      (a.foldl (fun r ca => lcsRowGo ca b r 0 0) (List.replicate b.length 0)).length = 0
  · rw [if_pos hz] at hle
    exact hle.trans (Nat.zero_le _)
  · rw [if_neg hz] at hle
    omega

/-- The Indel ratio is nonnegative. -/
theorem fuzzRatio_nonneg (a b : Str) : 0 ≤ fuzzRatio a b := by
  unfold fuzzRatio
  split_ifs
  · norm_num
  · rw [Rat.mkRat_eq_div]
    positivity

/-- The Indel ratio is at most 100. -/
theorem fuzzRatio_le_100 (a b : Str) : fuzzRatio a b ≤ 100 := by
  unfold fuzzRatio
  split_ifs with h
  · norm_num
  · rw [Rat.mkRat_eq_div]
    have hpos : (0 : ℚ) < ((a.length + b.length : ℕ) : ℚ) := by
      have := Nat.pos_of_ne_zero h
      exact_mod_cast this
    rw [div_le_iff₀ hpos]
    have h1 := lcsLen_le_left a b
    have h2 := lcsLen_le_right a b
    have h1' : (lcsLen a b : ℚ) ≤ (a.length : ℚ) := by exact_mod_cast h1
    have h2' : (lcsLen a b : ℚ) ≤ (b.length : ℚ) := by exact_mod_cast h2
    push_cast
    linarith

/-- The order-insensitive similarity is nonnegative. -/
theorem token_sort_ratio_nonneg (a b : Str) : 0 ≤ token_sort_ratio a b := by
  unfold token_sort_ratio
  exact fuzzRatio_nonneg _ _

/-- The order-insensitive similarity is at most 100. -/
theorem token_sort_ratio_le_100 (a b : Str) : token_sort_ratio a b ≤ 100 := by
  unfold token_sort_ratio
  exact fuzzRatio_le_100 _ _

/-- Every entry of a ranked list is an alias with its
`token_sort_ratio` score and input-list frequency. -/
theorem rank_by_tokens_mem (aliases target : List Str) (k : Nat)
    (x : Str × ℚ × Nat) (hx : x ∈ rank_by_tokens aliases target k) :
    ∃ a, x = (a, token_sort_ratio (_normalize a) (_normalize (joinSpace target)),
      aliases.count a) := by
  unfold rank_by_tokens at hx
  by_cases ht : target.isEmpty = true
  · rw [if_pos ht] at hx
    cases hx
  · rw [if_neg ht] at hx
    have hx2 := List.mem_of_mem_take hx
    have hx3 := (List.perm_insertionSort
      (fun x y => rankLeB x y = true) _).mem_iff.mp hx2
    rcases List.mem_map.mp hx3 with ⟨a, _, rfl⟩
    exact ⟨a, rfl⟩

end Orderly

namespace Orderly

/-! Claim C9, part 2: the ranked key sequence is permutation
invariant. -/

/-- Descending lexicographic order on `(score, frequency)` keys. -/
def keyGe (u v : ℚ × Nat) : Prop := v.1 < u.1 ∨ (u.1 = v.1 ∧ v.2 ≤ u.2)

/-- The Boolean rank order spelled out. -/
theorem rankLeB_iff (x y : Str × ℚ × Nat) :
    rankLeB x y = true ↔ (y.2.1 < x.2.1 ∨ (x.2.1 = y.2.1 ∧ y.2.2 ≤ x.2.2)) := by
  simp [rankLeB]

/-- The rank order is total. -/
theorem rankLe_total : ∀ x y : Str × ℚ × Nat, rankLeB x y = true ∨ rankLeB y x = true := by
  intro x y
  rw [rankLeB_iff, rankLeB_iff]
  rcases lt_trichotomy x.2.1 y.2.1 with h | h | h
  · exact Or.inr (Or.inl h)
  · rcases Nat.le_total y.2.2 x.2.2 with h2 | h2
    · exact Or.inl (Or.inr ⟨h, h2⟩)
    · exact Or.inr (Or.inr ⟨h.symm, h2⟩)
  · exact Or.inl (Or.inl h)

/-- The rank order is transitive. -/
theorem rankLe_trans : ∀ x y z : Str × ℚ × Nat,
    rankLeB x y = true → rankLeB y z = true → rankLeB x z = true := by
  intro x y z hxy hyz
  rw [rankLeB_iff] at hxy hyz ⊢
  rcases hxy with h1 | ⟨e1, f1⟩ <;> rcases hyz with h2 | ⟨e2, f2⟩
  · exact Or.inl (h2.trans h1)
  · exact Or.inl (e2 ▸ h1)
  · refine Or.inl ?_
    rw [e1]
    exact h2
  · exact Or.inr ⟨e1.trans e2, f2.trans f1⟩

/-- The key order is antisymmetric. -/
theorem keyGe_antisymm : ∀ u v : ℚ × Nat, keyGe u v → keyGe v u → u = v := by
  intro u v h1 h2
  rcases h1 with h1 | ⟨e1, f1⟩ <;> rcases h2 with h2 | ⟨e2, f2⟩
  · exact absurd h2 (lt_asymm h1)
  · rw [e2] at h1
    exact absurd h1 (lt_irrefl _)
  · rw [e1] at h2
    exact absurd h2 (lt_irrefl _)
  · exact Prod.ext e1 (Nat.le_antisymm f2 f1)

/-- Sorting permuted scored lists yields the same key sequence. -/
theorem insertionSort_key_perm (s1 s2 : List (Str × ℚ × Nat)) (hperm : s1.Perm s2) :
    ((s1.insertionSort (fun x y => rankLeB x y = true)).map rankKey) =
      ((s2.insertionSort (fun x y => rankLeB x y = true)).map rankKey) := by
  haveI instTotal : IsTotal (Str × ℚ × Nat) (fun x y => rankLeB x y = true) :=
    ⟨rankLe_total⟩
  haveI instTrans : IsTrans (Str × ℚ × Nat) (fun x y => rankLeB x y = true) :=
    ⟨rankLe_trans⟩
  haveI instAnti : IsAntisymm (ℚ × Nat) keyGe := ⟨keyGe_antisymm⟩
  have hs1 := List.sorted_insertionSort (fun x y => rankLeB x y = true) s1
  have hs2 := List.sorted_insertionSort (fun x y => rankLeB x y = true) s2
  have hk1 : List.Sorted keyGe
      ((s1.insertionSort (fun x y => rankLeB x y = true)).map rankKey) :=
    List.pairwise_map.mpr (hs1.imp (fun h => (rankLeB_iff _ _).mp h))
  have hk2 : List.Sorted keyGe
      ((s2.insertionSort (fun x y => rankLeB x y = true)).map rankKey) :=
    List.pairwise_map.mpr (hs2.imp (fun h => (rankLeB_iff _ _).mp h))
  have hpk := ((List.perm_insertionSort (fun x y => rankLeB x y = true) s1).trans
    (hperm.trans (List.perm_insertionSort (fun x y => rankLeB x y = true) s2).symm)).map
    rankKey
  exact List.eq_of_perm_of_sorted hpk hk1 hk2

/-- Unfolding of `rank_by_tokens` for a nonempty target. -/
theorem rank_by_tokens_eq (aliases target : List Str) (k : Nat)
    (h : target.isEmpty = false) :
    rank_by_tokens aliases target k =
      (((aliases.filter (fun a => !a.isEmpty && !(stripStr a).isEmpty)).map
        (fun a => (a, token_sort_ratio (_normalize a) (_normalize (joinSpace target)),
          aliases.count a))).insertionSort (fun x y => rankLeB x y = true)).take k := by
  unfold rank_by_tokens
  rw [if_neg (by rw [h]; exact Bool.false_ne_true)]

/-- Permuting the alias list leaves the ranked key sequence unchanged. -/
theorem rank_by_tokens_perm_key (aliases1 aliases2 target : List Str) (k : Nat)
    (hp : aliases1.Perm aliases2) :
    (rank_by_tokens aliases1 target k).map rankKey =
      (rank_by_tokens aliases2 target k).map rankKey := by
  by_cases ht : target.isEmpty = true
  · unfold rank_by_tokens
    rw [if_pos ht, if_pos ht]
  · have ht' : target.isEmpty = false := Bool.eq_false_iff.mpr ht
    rw [rank_by_tokens_eq aliases1 target k ht', rank_by_tokens_eq aliases2 target k ht',
      List.map_take, List.map_take]
    have hcount : ∀ a, aliases1.count a = aliases2.count a := fun a =>
      hp.countP_eq (fun x => x == a)
    have hmapeq :
        (aliases2.filter (fun a => !a.isEmpty && !(stripStr a).isEmpty)).map
          (fun a => (a, token_sort_ratio (_normalize a) (_normalize (joinSpace target)),
            aliases2.count a)) =
        (aliases2.filter (fun a => !a.isEmpty && !(stripStr a).isEmpty)).map
          (fun a => (a, token_sort_ratio (_normalize a) (_normalize (joinSpace target)),
            aliases1.count a)) :=
      List.map_congr_left (fun a _ => by rw [hcount a])
    have hpermscored :
        ((aliases1.filter (fun a => !a.isEmpty && !(stripStr a).isEmpty)).map
          (fun a => (a, token_sort_ratio (_normalize a) (_normalize (joinSpace target)),
            aliases1.count a))).Perm
        ((aliases2.filter (fun a => !a.isEmpty && !(stripStr a).isEmpty)).map
          (fun a => (a, token_sort_ratio (_normalize a) (_normalize (joinSpace target)),
            aliases2.count a))) := by
      rw [hmapeq]
      exact (hp.filter _).map _
    rw [insertionSort_key_perm _ _ hpermscored]

/-- C9 counterexample: the two aliases `"ab xy"` and `"xy ab"` carry
the identical pair `(100, 1)`, yet swapping them in the input changes
the returned top-2 list: the ranking outcome is not invariant under
permuting aliases with identical `(score, frequency)` pairs. -/
theorem c9_counterexample :
    (rank_by_tokens [strOf "ab xy", strOf "xy ab"] [strOf "ab", strOf "xy"] 2).map rankKey =
      [(100, 1), (100, 1)] ∧
    List.Perm [strOf "ab xy", strOf "xy ab"] [strOf "xy ab", strOf "ab xy"] ∧
    rank_by_tokens [strOf "ab xy", strOf "xy ab"] [strOf "ab", strOf "xy"] 2 ≠
      rank_by_tokens [strOf "xy ab", strOf "ab xy"] [strOf "ab", strOf "xy"] 2 := by
  refine ⟨by decide, ?_, by decide⟩
  exact List.Perm.swap (strOf "xy ab") (strOf "ab xy") []

section RankBounds

attribute [local irreducible] token_sort_ratio

/-- Every ranked score lies between 0 and 100. -/
theorem rank_scores_bounded (aliases target : List Str) (k : Nat)
    (x : Str × ℚ × Nat) (hx : x ∈ rank_by_tokens aliases target k) :
    0 ≤ x.2.1 ∧ x.2.1 ≤ 100 := by
  unfold rank_by_tokens at hx
  by_cases ht : target.isEmpty = true
  · rw [if_pos ht] at hx
    cases hx
  · rw [if_neg ht] at hx
    have hx2 := List.mem_of_mem_take hx
    have hx3 := (List.perm_insertionSort
      (fun x y => rankLeB x y = true) _).mem_iff.mp hx2
    rcases List.mem_map.mp hx3 with ⟨a, _, rfl⟩
    exact ⟨token_sort_ratio_nonneg _ _, token_sort_ratio_le_100 _ _⟩

end RankBounds

/-- C9 (amended): every score produced by the alias ranker lies in
`[0, 100]`; and permuting the alias list leaves the `(score, frequency)`
key sequence of the ranked top-K (hence ranks, scores, and the derived
decision) unchanged, though the alias texts occupying tied positions may
follow the input order. -/
theorem c9_scores_bounded_and_keys_perm_invariant :
    (∀ aliases target : List Str, ∀ k : Nat, ∀ x ∈ rank_by_tokens aliases target k,
      0 ≤ x.2.1 ∧ x.2.1 ≤ 100) ∧
    (∀ aliases1 aliases2 target : List Str, ∀ k : Nat, aliases1.Perm aliases2 →
      (rank_by_tokens aliases1 target k).map rankKey =
        (rank_by_tokens aliases2 target k).map rankKey) :=
  ⟨rank_scores_bounded, rank_by_tokens_perm_key⟩

/-- Witness for C9 at the tied two-alias group. -/
theorem c9_scores_bounded_and_keys_perm_invariant_witness :
    (0 ≤ ((strOf "ab xy", (100 : ℚ), 1) : Str × ℚ × Nat).2.1 ∧
      ((strOf "ab xy", (100 : ℚ), 1) : Str × ℚ × Nat).2.1 ≤ 100) ∧
    (rank_by_tokens [strOf "ab xy", strOf "xy ab"] [strOf "ab", strOf "xy"] 2).map rankKey =
      (rank_by_tokens [strOf "xy ab", strOf "ab xy"] [strOf "ab", strOf "xy"] 2).map
        rankKey :=
  ⟨c9_scores_bounded_and_keys_perm_invariant.1
      [strOf "ab xy", strOf "xy ab"] [strOf "ab", strOf "xy"] 2
      (strOf "ab xy", 100, 1) (by decide),
    c9_scores_bounded_and_keys_perm_invariant.2
      [strOf "ab xy", strOf "xy ab"] [strOf "xy ab", strOf "ab xy"]
      [strOf "ab", strOf "xy"] 2 (List.Perm.swap (strOf "xy ab") (strOf "ab xy") [])⟩

end Orderly

namespace Orderly

/-! Claim C2. -/

/-- C2: for every alias group, with `s1` the rank-0 score and `s2` the
rank-1 score (0 when absent), the decision is `AUTO` iff `s1 > s2` and
`s1 > 80` strictly; `final_sku_name` is the canonicalized rank-0 alias
when `AUTO` and empty otherwise; and whenever `s1 ≤ 80` or `s1 = s2` the
decision is `NEED_APPROVAL` with empty `final_sku_name`. -/
theorem c2_decision_rule (sku : Str) (descriptions : List Str) :
    ((process_sku_group sku descriptions).decision = AUTO ↔
      runnerUpScore (topAliases descriptions) < topScore (topAliases descriptions) ∧
        80 < topScore (topAliases descriptions)) ∧
    (process_sku_group sku descriptions).final_sku_name =
      (if runnerUpScore (topAliases descriptions) < topScore (topAliases descriptions) ∧
          80 < topScore (topAliases descriptions) then
        topCanonical (topAliases descriptions)
      else []) ∧
    (topScore (topAliases descriptions) ≤ 80 ∨
        topScore (topAliases descriptions) = runnerUpScore (topAliases descriptions) →
      (process_sku_group sku descriptions).decision = NEED ∧
        (process_sku_group sku descriptions).final_sku_name = []) := by
  rw [process_sku_group_eq]
  dsimp only
  refine ⟨?_, rfl, ?_⟩
  · by_cases h : runnerUpScore (topAliases descriptions) < topScore (topAliases descriptions) ∧
        80 < topScore (topAliases descriptions)
    · rw [if_pos h]
      exact iff_of_true rfl h
    · rw [if_neg h]
      exact iff_of_false (by decide) h
  · intro hle
    have h : ¬(runnerUpScore (topAliases descriptions) < topScore (topAliases descriptions) ∧
        80 < topScore (topAliases descriptions)) := by
      rcases hle with h1 | h2
      · exact fun hc => absurd hc.2 (not_lt.mpr h1)
      · exact fun hc => absurd hc.1 (h2 ▸ lt_irrefl _)
    rw [if_neg h, if_neg h]
    exact ⟨rfl, rfl⟩

/-- Witness for C2: the end-to-end tie group gets `NEED_APPROVAL`. -/
theorem c2_decision_rule_witness :
    (process_sku_group (strOf "SKU001")
      [strOf "wireless keybord black", strOf "wireless keyboard black",
       strOf "wireless keyboard black", strOf "black wireless keyboard"]).decision = NEED :=
  ((c2_decision_rule (strOf "SKU001")
    [strOf "wireless keybord black", strOf "wireless keyboard black",
     strOf "wireless keyboard black", strOf "black wireless keyboard"]).2.2
    (Or.inr (by decide))).1

end Orderly

namespace Orderly

/-! Claim C5. -/

/-- C5 counterexample: on the group
`["keyboard zzzz yyyy xxxx wwww", "k3yboard"]` the rank-0 alias is
`"k3yboard"`, yet the exported `match_name` is empty: it is the
canonicalized rank-0 text, not the original text, and it is not
populated. -/
theorem c5_counterexample :
    topOriginal (topAliases [strOf "keyboard zzzz yyyy xxxx wwww", strOf "k3yboard"]) =
      strOf "k3yboard" ∧
    topAliases [strOf "keyboard zzzz yyyy xxxx wwww", strOf "k3yboard"] ≠ [] ∧
    (process_sku_group (strOf "SKU001")
      [strOf "keyboard zzzz yyyy xxxx wwww", strOf "k3yboard"]).match_name = [] := by
  decide

/-- C5 (amended): for every alias group that yields at least one ranked
alias, the exported `match_name` equals the canonicalized text of the
rank-0 alias (its normalized alphabetic tokens with `rep_map` applied,
rejoined), not the original alias text; it may therefore be empty when
the rank-0 alias has no alphabetic token. -/
theorem c5_match_name_is_canonicalized (sku : Str) (descriptions : List Str)
    (h : topAliases descriptions ≠ []) :
    (process_sku_group sku descriptions).match_name =
      topCanonical (topAliases descriptions) ∧
    topCanonical (topAliases descriptions) =
      _alias_to_transformed_string (topOriginal (topAliases descriptions))
        (transform_aliases_with_canonical_tokens descriptions 2 4 2 3).rep_map := by
  constructor
  · rw [process_sku_group_eq]
  · have hmap := transform_top_k_canonicalized_eq descriptions 2 4 2 3
    rcases hor : (transform_aliases_with_canonical_tokens descriptions 2 4 2 3).top_k_original
      with _ | ⟨x, rest⟩
    · exact absurd (by rw [topAliases, hmap, hor]; rfl) h
    · rw [topAliases, hmap, hor]
      rfl

/-- Witness for C5 at the end-to-end scenario group. -/
theorem c5_match_name_is_canonicalized_witness :
    (process_sku_group (strOf "SKU001")
      [strOf "wireless keybord black", strOf "wireless keyboard black",
       strOf "wireless keyboard black", strOf "black wireless keyboard"]).match_name =
      topCanonical (topAliases
        [strOf "wireless keybord black", strOf "wireless keyboard black",
         strOf "wireless keyboard black", strOf "black wireless keyboard"]) ∧
    topCanonical (topAliases
      [strOf "wireless keybord black", strOf "wireless keyboard black",
       strOf "wireless keyboard black", strOf "black wireless keyboard"]) =
      _alias_to_transformed_string (topOriginal (topAliases
        [strOf "wireless keybord black", strOf "wireless keyboard black",
         strOf "wireless keyboard black", strOf "black wireless keyboard"]))
        (transform_aliases_with_canonical_tokens
          [strOf "wireless keybord black", strOf "wireless keyboard black",
           strOf "wireless keyboard black", strOf "black wireless keyboard"] 2 4 2 3).rep_map :=
  c5_match_name_is_canonicalized (strOf "SKU001")
    [strOf "wireless keybord black", strOf "wireless keyboard black",
     strOf "wireless keyboard black", strOf "black wireless keyboard"] (by decide)

end Orderly

namespace Orderly

/-! Claim C6. -/

/-- C6 counterexample: a group whose aliases are all blank is not
rejected: the engine returns the empty result record and the CLI still
produces a curation record, with no error. -/
theorem c6_counterexample :
    transform_aliases_with_canonical_tokens [strOf " ", []] 2 4 2 3 =
      { rep_map := [], transformed_aliases := [], canonical_tokens := [],
        top_k_original := [], top_k_canonicalized := [] } ∧
    process_sku_group (strOf "SKU001") [strOf " ", []] =
      { sku_id := strOf "SKU001", raw_names := [32, 44], match_name := [],
        match_score := 0, final_sku_name := [], decision := NEED } := by
  decide

/-- C6 (amended): an alias group containing no non-blank alias is not
rejected with a validation error; the engine silently returns the empty
result for any parameters, and the CLI emits a `NEED_APPROVAL` curation
record with empty `match_name`, score 0 and empty `final_sku_name`. -/
theorem c6_blank_group_silent (sku : Str) (aliases : List Str) (e m tm tk : Nat)
    (h : (aliases.filter (fun a => !a.isEmpty && !(stripStr a).isEmpty)).isEmpty = true) :
    transform_aliases_with_canonical_tokens aliases e m tm tk =
      { rep_map := [], transformed_aliases := [], canonical_tokens := [],
        top_k_original := [], top_k_canonicalized := [] } ∧
    process_sku_group sku aliases =
      { sku_id := sku, raw_names := joinComma aliases, match_name := [],
        match_score := 0, final_sku_name := [], decision := NEED } := by
  refine ⟨transform_blank_eq_empty aliases e m tm tk h, ?_⟩
  have hta : topAliases aliases = [] := by
    rw [topAliases, transform_blank_eq_empty aliases 2 4 2 3 h]
  have hcond : ¬(runnerUpScore ([] : List (Str × Str × ℚ × Nat)) < topScore [] ∧
      80 < topScore ([] : List (Str × Str × ℚ × Nat))) := by
    intro hc
    exact absurd hc.1 (lt_irrefl 0)
  rw [process_sku_group_eq, hta, if_neg hcond, if_neg hcond]
  rfl

/-- Witness for C6 at a concrete all-blank group. -/
theorem c6_blank_group_silent_witness :
    transform_aliases_with_canonical_tokens [strOf "  ", []] 5 6 7 8 =
      { rep_map := [], transformed_aliases := [], canonical_tokens := [],
        top_k_original := [], top_k_canonicalized := [] } ∧
    process_sku_group (strOf "SKU009") [strOf "  ", []] =
      { sku_id := strOf "SKU009", raw_names := joinComma [strOf "  ", []],
        match_name := [], match_score := 0, final_sku_name := [], decision := NEED } :=
  c6_blank_group_silent (strOf "SKU009") [strOf "  ", []] 5 6 7 8 (by decide)

end Orderly

namespace Orderly

/-! Claim C10. -/

/-- Selecting canonical tokens from all-empty token lists yields the
empty list. -/
theorem most_frequent_canonical_tokens_nil (lists : List (List Str)) (tm : Nat) (up : Bool)
    (h : ∀ l ∈ lists, l = []) :
    most_frequent_canonical_tokens lists tm up = [] := by
  have hstream : (if up then (lists.map firstDedup).flatten else lists.flatten) = [] := by
    cases up
    · exact List.flatten_eq_nil_iff.mpr h
    · refine List.flatten_eq_nil_iff.mpr ?_
      intro l hl
      rcases List.mem_map.mp hl with ⟨l0, hl0, rfl⟩
      rw [h l0 hl0]
      rfl
  unfold most_frequent_canonical_tokens
  rw [hstream]
  rfl

/-- C10: a group whose aliases are non-blank but yield no alphabetic
tokens after normalization produces no canonical tokens, an empty ranked
list, and still yields a curation record with empty `match_name`, score
0, empty `final_sku_name` and decision `NEED_APPROVAL`, with no
error. -/
theorem c10_tokenless_group (sku : Str) (aliases : List Str)
    (h1 : (aliases.filter (fun a => !a.isEmpty && !(stripStr a).isEmpty)).isEmpty = false)
    (h2 : ∀ a ∈ aliases, _norm_tokens a = []) :
    (transform_aliases_with_canonical_tokens aliases 2 4 2 3).canonical_tokens = [] ∧
    (transform_aliases_with_canonical_tokens aliases 2 4 2 3).top_k_original = [] ∧
    process_sku_group sku aliases =
      { sku_id := sku, raw_names := joinComma aliases, match_name := [],
        match_score := 0, final_sku_name := [], decision := NEED } := by
  have hal : ∀ a ∈ aliases.filter (fun a => !a.isEmpty && !(stripStr a).isEmpty),
      _norm_tokens a = [] := fun a ha => h2 a (List.mem_of_mem_filter ha)
  have htrans : ∀ l ∈ _apply_rep_map
      ((aliases.filter (fun a => !a.isEmpty && !(stripStr a).isEmpty)).map _norm_tokens)
      (build_rep_map_typo_collapse
        ((aliases.filter (fun a => !a.isEmpty && !(stripStr a).isEmpty)).map _norm_tokens)
        2 4), l = [] := by
    intro l hl
    rcases List.mem_map.mp hl with ⟨l0, hl0, rfl⟩
    rcases List.mem_map.mp hl0 with ⟨a, ha, rfl⟩
    rw [hal a ha]
    rfl
  have hcanon : (transform_aliases_with_canonical_tokens aliases 2 4 2 3).canonical_tokens
      = [] := by
    unfold transform_aliases_with_canonical_tokens
    rw [if_neg (by rw [h1]; exact Bool.false_ne_true)]
    exact most_frequent_canonical_tokens_nil _ 2 true htrans
  have hrank : (transform_aliases_with_canonical_tokens aliases 2 4 2 3).top_k_original
      = [] := by
    have hck := hcanon
    unfold transform_aliases_with_canonical_tokens at hck ⊢
    rw [if_neg (by rw [h1]; exact Bool.false_ne_true)] at hck ⊢
    dsimp only at hck ⊢
    rw [rank_by_tokens, if_pos (by rw [hck]; rfl)]
  refine ⟨hcanon, hrank, ?_⟩
  have hta : topAliases aliases = [] := by
    rw [topAliases, transform_top_k_canonicalized_eq, hrank]
    rfl
  have hcond : ¬(runnerUpScore ([] : List (Str × Str × ℚ × Nat)) < topScore [] ∧
      80 < topScore ([] : List (Str × Str × ℚ × Nat))) := by
    intro hc
    exact absurd hc.1 (lt_irrefl 0)
  rw [process_sku_group_eq, hta, if_neg hcond, if_neg hcond]
  rfl

/-- Witness for C10 at the digits-only group `["1234"]`. -/
theorem c10_tokenless_group_witness :
    (transform_aliases_with_canonical_tokens [strOf "1234"] 2 4 2 3).canonical_tokens = [] ∧
    (transform_aliases_with_canonical_tokens [strOf "1234"] 2 4 2 3).top_k_original = [] ∧
    process_sku_group (strOf "SKU007") [strOf "1234"] =
      { sku_id := strOf "SKU007", raw_names := joinComma [strOf "1234"], match_name := [],
        match_score := 0, final_sku_name := [], decision := NEED } :=
  c10_tokenless_group (strOf "SKU007") [strOf "1234"] (by decide) (by decide)

end Orderly

namespace Orderly

/-! Claim C7. -/

/-- No duplicated `sku_id` is detected exactly when the key column is
pairwise distinct. -/
theorem dupSkuB_eq_false_iff (l : List SeedRow) :
    dupSkuB l = false ↔ (l.map (fun r => r.sku_id)).Nodup := by
  induction l with
  | nil => simp [dupSkuB]
  | cons r rest ih =>
    simp only [dupSkuB, Bool.or_eq_false_iff, List.any_eq_false, beq_iff_eq, ih,
      List.map_cons, List.nodup_cons, List.mem_map]
    constructor
    · rintro ⟨h1, h2⟩
      refine ⟨?_, h2⟩
      rintro ⟨e, he, hekey⟩
      exact h1 e he hekey
    · rintro ⟨h1, h2⟩
      exact ⟨fun e he hekey => h1 ⟨e, he, hekey⟩, h2⟩

/-- The blank-name scan fails exactly when every row has a non-blank
canonical name. -/
theorem anyBlank_eq_false_iff (l : List SeedRow) :
    (l.any (fun r => (stripStr r.canonical_name).isEmpty)) = false ↔
      ∀ r ∈ l, stripStr r.canonical_name ≠ [] := by
  simp [List.any_eq_false, List.isEmpty_iff]

/-- C7: after every merge run the final seed is validated, before any
output, for unique `sku_id` and non-blank `canonical_name`; the run
writes (returns `ok`) exactly when both invariants hold, and what it
writes is exactly the merged seed, all-or-nothing. -/
theorem c7_post_merge_validation (existing new_rows : List SeedRow) :
    ((∃ s, main_merge existing new_rows = Except.ok s) ↔
      ((merge_seed existing new_rows).map (fun r => r.sku_id)).Nodup ∧
        ∀ r ∈ merge_seed existing new_rows, stripStr r.canonical_name ≠ []) ∧
    ∀ s, main_merge existing new_rows = Except.ok s → s = merge_seed existing new_rows := by
  have hiff1 := dupSkuB_eq_false_iff (merge_seed existing new_rows)
  have hiff2 := anyBlank_eq_false_iff (merge_seed existing new_rows)
  unfold main_merge
  by_cases hd : dupSkuB (merge_seed existing new_rows) = true
  · rw [if_pos hd]
    refine ⟨⟨?_, ?_⟩, ?_⟩
    · rintro ⟨s, hs⟩
      exact absurd hs (by simp)
    · rintro ⟨hnodup, _⟩
      have := hiff1.mpr hnodup
      rw [hd] at this
      exact absurd this (by simp)
    · intro s hs
      exact absurd hs (by simp)
  · have hd' : dupSkuB (merge_seed existing new_rows) = false :=
      Bool.eq_false_iff.mpr hd
    rw [if_neg hd]
    by_cases he : (merge_seed existing new_rows).any
        (fun r => (stripStr r.canonical_name).isEmpty) = true
    · rw [if_pos he]
      refine ⟨⟨?_, ?_⟩, ?_⟩
      · rintro ⟨s, hs⟩
        exact absurd hs (by simp)
      · rintro ⟨_, hne⟩
        have := hiff2.mpr hne
        rw [he] at this
        exact absurd this (by simp)
      · intro s hs
        exact absurd hs (by simp)
    · have he' : (merge_seed existing new_rows).any
          (fun r => (stripStr r.canonical_name).isEmpty) = false :=
        Bool.eq_false_iff.mpr he
      rw [if_neg he]
      refine ⟨⟨?_, ?_⟩, ?_⟩
      · intro _
        exact ⟨hiff1.mp hd', hiff2.mp he'⟩
      · intro _
        exact ⟨merge_seed existing new_rows, rfl⟩
      · intro s hs
        exact (Except.ok.inj hs).symm

/-- Witness for C7: a valid two-row merge, and an invalid merge whose
incoming rows carry a blank name and which therefore writes nothing. -/
theorem c7_post_merge_validation_witness :
    main_merge []
      [⟨strOf "A", strOf "Name", SRC_AUTO, strOf "d", strOf "v0.1"⟩] =
      Except.ok [⟨strOf "A", strOf "Name", SRC_AUTO, strOf "d", strOf "v0.1"⟩] ∧
    (∃ s, main_merge []
      [⟨strOf "A", strOf "Name", SRC_AUTO, strOf "d", strOf "v0.1"⟩] = Except.ok s) := by
  have h := c7_post_merge_validation []
    [⟨strOf "A", strOf "Name", SRC_AUTO, strOf "d", strOf "v0.1"⟩]
  have hok : ∃ s, main_merge []
      [⟨strOf "A", strOf "Name", SRC_AUTO, strOf "d", strOf "v0.1"⟩] = Except.ok s :=
    h.1.mpr (by decide)
  rcases hok with ⟨s, hs⟩
  have hseq := h.2 s hs
  refine ⟨?_, ⟨s, hs⟩⟩
  rw [hs, hseq]
  rfl

end Orderly

namespace Orderly

/-! Claim C4. -/

/-- Reflexivity of the version-tuple order. -/
theorem pairLe_refl (a : Nat × Nat) : pairLe a a := Or.inr ⟨rfl, Nat.le_refl _⟩

/-- Transitivity of the version-tuple order. -/
theorem pairLe_trans {a b c : Nat × Nat} (h1 : pairLe a b) (h2 : pairLe b c) : pairLe a c := by
  rcases h1 with h1 | ⟨e1, l1⟩ <;> rcases h2 with h2 | ⟨e2, l2⟩
  · exact Or.inl (h1.trans h2)
  · exact Or.inl (e2 ▸ h1)
  · exact Or.inl (e1 ▸ h2)
  · exact Or.inr ⟨e1.trans e2, l1.trans l2⟩

/-- The left argument never exceeds the tuple maximum. -/
theorem pairLe_maxPair_left (a b : Nat × Nat) : pairLe a (maxPair a b) := by
  unfold maxPair
  split_ifs with h1 h2
  · exact Or.inl h1
  · exact pairLe_refl a
  · exact Or.inr ⟨rfl, Nat.le_max_left _ _⟩

/-- The right argument never exceeds the tuple maximum. -/
theorem pairLe_maxPair_right (a b : Nat × Nat) : pairLe b (maxPair a b) := by
  unfold maxPair
  split_ifs with h1 h2
  · exact pairLe_refl b
  · exact Or.inl h2
  · exact Or.inr ⟨Nat.le_antisymm (Nat.not_lt.mp h1) (Nat.not_lt.mp h2), Nat.le_max_right _ _⟩

/-- The tuple maximum is one of its arguments. -/
theorem maxPair_eq_or (a b : Nat × Nat) : maxPair a b = a ∨ maxPair a b = b := by
  unfold maxPair
  split_ifs with h1 h2
  · right
    rfl
  · left
    rfl
  · have he : a.1 = b.1 := Nat.le_antisymm (Nat.not_lt.mp h2) (Nat.not_lt.mp h1)
    rcases Nat.le_total a.2 b.2 with h | h
    · right
      rw [Nat.max_eq_right h, he]
    · left
      rw [Nat.max_eq_left h]

/-- Folding the tuple maximum never decreases the accumulator. -/
theorem foldl_maxPair_mono (l : List (Nat × Nat)) (acc : Nat × Nat) :
    pairLe acc (l.foldl maxPair acc) := by
  induction l generalizing acc with
  | nil => exact pairLe_refl acc
  | cons a l ih => exact pairLe_trans (pairLe_maxPair_left acc a) (ih (maxPair acc a))

/-- Every list element is dominated by the folded tuple maximum. -/
theorem foldl_maxPair_mem_le (l : List (Nat × Nat)) (acc x : Nat × Nat) (hx : x ∈ l) :
    pairLe x (l.foldl maxPair acc) := by
  induction l generalizing acc with
  | nil => cases hx
  | cons a l ih =>
    rcases List.mem_cons.mp hx with rfl | h
    · exact pairLe_trans (pairLe_maxPair_right acc x) (foldl_maxPair_mono l _)
    · exact ih (maxPair acc a) h

/-- The folded tuple maximum is the accumulator or some list element. -/
theorem foldl_maxPair_attained (l : List (Nat × Nat)) (acc : Nat × Nat) :
    l.foldl maxPair acc = acc ∨ ∃ x ∈ l, l.foldl maxPair acc = x := by
  induction l generalizing acc with
  | nil =>
    left
    rfl
  | cons a l ih =>
    rcases ih (maxPair acc a) with h | ⟨x, hx, he⟩
    · rcases maxPair_eq_or acc a with hm | hm
      · left
        rw [List.foldl_cons, h, hm]
      · right
        exact ⟨a, List.mem_cons_self a l, by rw [List.foldl_cons, h, hm]⟩
    · right
      exact ⟨x, List.mem_cons_of_mem a hx, by rw [List.foldl_cons, he]⟩

/-- Only `(0, 0)` sits below `(0, 0)` in the version-tuple order. -/
theorem pairLe_zero {x : Nat × Nat} (h : pairLe x (0, 0)) : x = (0, 0) := by
  rcases h with h | ⟨e, l⟩
  · exact absurd h (Nat.not_lt_zero _)
  · rcases x with ⟨x1, x2⟩
    simp only at e l
    rw [e, Nat.le_zero.mp l]

/-- C4: with no explicit version, every existing version string is
parsed by `semver_tuple` (unparseable or absent giving `(0, 0)`), the
maximum `(MAJOR, MINOR)` tuple over the whole seed is taken (it
dominates every row and is attained), the run is stamped
`v{MAJOR}.{MINOR+1}`, every emitted row carries that uniform version,
and existing versions `v2.3` and `v1.9` bump to exactly `v2.4`. -/
theorem c4_version_bump :
    (∀ existing : List SeedRow, existing.isEmpty = false →
      bump_version_auto existing =
        strOf "v" ++ natToStr (maxTuple existing).1 ++ strOf "." ++
          natToStr ((maxTuple existing).2 + 1)) ∧
    (∀ existing : List SeedRow, ∀ r ∈ existing,
      pairLe (semver_tuple r.version) (maxTuple existing)) ∧
    (∀ existing : List SeedRow, existing = [] ∨
      ∃ r ∈ existing, maxTuple existing = semver_tuple r.version) ∧
    (∀ approved eff ver out, build_new_rows approved eff ver = Except.ok out →
      ∀ r ∈ out, r.version = ver) ∧
    semver_tuple (strOf "v2.3") = (2, 3) ∧
    semver_tuple (strOf "v1.9") = (1, 9) ∧
    semver_tuple (strOf " v7 ") = (7, 0) ∧
    semver_tuple (strOf "garbage") = (0, 0) ∧
    semver_tuple [] = (0, 0) ∧
    bump_version_auto
      [⟨strOf "A", strOf "x", SRC_AUTO, strOf "d", strOf "v2.3"⟩,
       ⟨strOf "B", strOf "y", SRC_AUTO, strOf "d", strOf "v1.9"⟩] = strOf "v2.4" := by
  refine ⟨?_, ?_, ?_, ?_, by decide, by decide, by decide, by decide, by decide, by decide⟩
  · intro existing h
    unfold bump_version_auto maxTuple
    rw [if_neg (by rw [h]; exact Bool.false_ne_true)]
  · intro existing r hr
    exact foldl_maxPair_mem_le _ _ _
      (List.mem_map.mpr ⟨r, hr, rfl⟩)
  · intro existing
    rcases existing with _ | ⟨r0, rest⟩
    · left
      rfl
    · right
      rcases foldl_maxPair_attained
          ((r0 :: rest).map (fun r => semver_tuple r.version)) (0, 0) with h | ⟨x, hx, he⟩
      · refine ⟨r0, List.mem_cons_self r0 rest, ?_⟩
        have hdom : pairLe (semver_tuple r0.version) (maxTuple (r0 :: rest)) :=
          foldl_maxPair_mem_le _ _ _ (List.mem_map.mpr ⟨r0, List.mem_cons_self r0 rest, rfl⟩)
        rw [maxTuple, h] at hdom ⊢
        exact (pairLe_zero hdom).symm
      · rcases List.mem_map.mp hx with ⟨r, hr, rfl⟩
        exact ⟨r, hr, he⟩
  · intro approved eff ver out hok r hr
    simp only [build_new_rows] at hok
    split at hok
    · rw [← Except.ok.inj hok] at hr
      cases hr
    · split at hok
      · exact absurd hok (by simp)
      · split at hok
        · exact absurd hok (by simp)
        · rw [← Except.ok.inj hok] at hr
          rcases List.mem_map.mp hr with ⟨x, hx, rfl⟩
          rfl

/-- Witness for C4: the bump formula, row dominance and attainment at
the `v2.3`/`v1.9` seed, and a concrete stamped run. -/
theorem c4_version_bump_witness :
    bump_version_auto
      [⟨strOf "A", strOf "x", SRC_AUTO, strOf "d", strOf "v2.3"⟩,
       ⟨strOf "B", strOf "y", SRC_AUTO, strOf "d", strOf "v1.9"⟩] = strOf "v2.4" ∧
    pairLe (semver_tuple (strOf "v1.9"))
      (maxTuple
        [⟨strOf "A", strOf "x", SRC_AUTO, strOf "d", strOf "v2.3"⟩,
         ⟨strOf "B", strOf "y", SRC_AUTO, strOf "d", strOf "v1.9"⟩]) ∧
    ∀ r ∈ [(⟨strOf "S1", strOf "Name", SRC_AUTO, strOf "2025-01-01", strOf "v2.4"⟩ : SeedRow)],
      r.version = strOf "v2.4" := by
  refine ⟨c4_version_bump.2.2.2.2.2.2.2.2.2, ?_, ?_⟩
  · exact c4_version_bump.2.1
      [⟨strOf "A", strOf "x", SRC_AUTO, strOf "d", strOf "v2.3"⟩,
       ⟨strOf "B", strOf "y", SRC_AUTO, strOf "d", strOf "v1.9"⟩]
      ⟨strOf "B", strOf "y", SRC_AUTO, strOf "d", strOf "v1.9"⟩ (by decide)
  · exact c4_version_bump.2.2.2.1
      [⟨strOf "S1", strOf "Name", strOf "AUTO"⟩] (strOf "2025-01-01") (strOf "v2.4")
      [⟨strOf "S1", strOf "Name", SRC_AUTO, strOf "2025-01-01", strOf "v2.4"⟩] rfl

end Orderly

namespace Orderly

/-! Claim C3. -/

/-- Unfolding the key-distinctness of a cons cell. -/
theorem keysNodup_cons (e : SeedRow) (rest : List SeedRow) :
    keysNodup (e :: rest) ↔
      (¬ e.sku_id ∈ rest.map (fun r => r.sku_id)) ∧ keysNodup rest := by
  show ((e :: rest).map (fun r => r.sku_id)).Nodup ↔ _
  rw [List.map_cons, List.nodup_cons]

/-- Finding in a cons whose head satisfies the predicate. -/
theorem find?_cons_pos (p : SeedRow → Bool) (x : SeedRow) (l : List SeedRow)
    (h : p x = true) : List.find? p (x :: l) = some x := by
  simp [List.find?_cons, h]

/-- Finding in a cons whose head fails the predicate. -/
theorem find?_cons_neg (p : SeedRow → Bool) (x : SeedRow) (l : List SeedRow)
    (h : p x = false) : List.find? p (x :: l) = List.find? p l := by
  simp [List.find?_cons, h]

/-- With pairwise distinct keys, the lookup finds a row exactly when it
is the member carrying the key. -/
theorem seedLookup_eq_some_iff (l : List SeedRow) (k : Str) :
    keysNodup l → ∀ r : SeedRow, (seedLookup l k = some r ↔ r ∈ l ∧ r.sku_id = k) := by
  induction l with
  | nil =>
    intro _ r
    simp [seedLookup]
  | cons e rest ih =>
    intro hn r
    rw [keysNodup_cons] at hn
    by_cases hk : e.sku_id = k
    · rw [seedLookup, find?_cons_pos (fun x => x.sku_id == k) e rest (by simp [hk])]
      constructor
      · intro h
        rw [← Option.some.inj h]
        exact ⟨List.mem_cons_self _ _, hk⟩
      · rintro ⟨hmem, hkey⟩
        rcases List.mem_cons.mp hmem with rfl | hmemr
        · rfl
        · exact absurd (List.mem_map.mpr ⟨r, hmemr, hkey.trans hk.symm⟩) hn.1
    · rw [seedLookup, find?_cons_neg (fun x => x.sku_id == k) e rest (by simp [hk])]
      rw [show (List.find? (fun x => x.sku_id == k) rest) = seedLookup rest k from rfl,
        ih hn.2 r]
      constructor
      · rintro ⟨hm, hkey⟩
        exact ⟨List.mem_cons_of_mem _ hm, hkey⟩
      · rintro ⟨hm, hkey⟩
        rcases List.mem_cons.mp hm with rfl | hm2
        · exact absurd hkey hk
        · exact ⟨hm2, hkey⟩

/-- Lookup is invariant under permutation when keys are distinct. -/
theorem seedLookup_perm (l1 l2 : List SeedRow) (hp : l1.Perm l2) (hn : keysNodup l1)
    (k : Str) : seedLookup l1 k = seedLookup l2 k := by
  have hn2 : keysNodup l2 := (hp.map (fun r => r.sku_id)).nodup_iff.mp hn
  cases hs : seedLookup l1 k with
  | some r =>
    have hm := (seedLookup_eq_some_iff l1 k hn r).mp hs
    exact ((seedLookup_eq_some_iff l2 k hn2 r).mpr ⟨hp.mem_iff.mp hm.1, hm.2⟩).symm
  | none =>
    have hall : ∀ x ∈ l2, ¬((x.sku_id == k) = true) := fun x hx =>
      List.find?_eq_none.mp hs x (hp.mem_iff.mpr hx)
    exact (List.find?_eq_none.mpr hall).symm

/-- Unfolding of one merge iteration when the key is absent. -/
theorem mergeStep_eq_insert (acc : List SeedRow) (q : SeedRow)
    (hf : acc.find? (fun e => e.sku_id == q.sku_id) = none) :
    mergeStep acc q = acc ++ [q] := by
  unfold mergeStep
  rw [hf]

/-- Unfolding of one merge iteration when the key is present. -/
theorem mergeStep_eq_update (acc : List SeedRow) (q e : SeedRow)
    (hf : acc.find? (fun x => x.sku_id == q.sku_id) = some e) :
    mergeStep acc q =
      if src_priority e.source ≤ src_priority q.source then
        acc.map (fun e2 => if e2.sku_id == q.sku_id then q else e2)
      else acc := by
  unfold mergeStep
  rw [hf]

/-- Replacing the row that carries `q`'s key does not disturb lookups at
other keys. -/
theorem find?_map_replace (l : List SeedRow) (q : SeedRow) (k : Str) (hk : q.sku_id ≠ k) :
    List.find? (fun e => e.sku_id == k)
      (l.map (fun e2 => if e2.sku_id == q.sku_id then q else e2)) =
    List.find? (fun e => e.sku_id == k) l := by
  induction l with
  | nil => rfl
  | cons x rest ih =>
    rw [List.map_cons]
    by_cases hx : (x.sku_id == q.sku_id) = true
    · have hxq : x.sku_id = q.sku_id := by
        have := hx
        simpa using this
      rw [if_pos hx]
      rw [find?_cons_neg (fun e => e.sku_id == k) q _ (by simp [hk]), ih,
        find?_cons_neg (fun e => e.sku_id == k) x rest (by simp [hxq ▸ hk])]
    · rw [if_neg hx]
      by_cases hxk : (x.sku_id == k) = true
      · rw [find?_cons_pos (fun e => e.sku_id == k) x _ hxk,
          find?_cons_pos (fun e => e.sku_id == k) x rest hxk]
      · rw [find?_cons_neg (fun e => e.sku_id == k) x _ (Bool.eq_false_iff.mpr hxk),
          find?_cons_neg (fun e => e.sku_id == k) x rest (Bool.eq_false_iff.mpr hxk), ih]

/-- Replacing the row that carries `q`'s key makes the lookup at that
key return `q`. -/
theorem find?_map_replace_self (l : List SeedRow) (q e : SeedRow)
    (hf : l.find? (fun x => x.sku_id == q.sku_id) = some e) :
    List.find? (fun x => x.sku_id == q.sku_id)
      (l.map (fun e2 => if e2.sku_id == q.sku_id then q else e2)) = some q := by
  induction l with
  | nil => exact absurd hf (by simp)
  | cons x rest ih =>
    rw [List.map_cons]
    by_cases hx : (x.sku_id == q.sku_id) = true
    · rw [if_pos hx]
      exact find?_cons_pos (fun x => x.sku_id == q.sku_id) q _ (by simp)
    · rw [if_neg hx, find?_cons_neg (fun x => x.sku_id == q.sku_id) x _
        (Bool.eq_false_iff.mpr hx)]
      rw [find?_cons_neg (fun x => x.sku_id == q.sku_id) x rest
        (Bool.eq_false_iff.mpr hx)] at hf
      exact ih hf

/-- Replacing the row that carries `q`'s key does not change the key
column. -/
theorem map_replace_keys (acc : List SeedRow) (q : SeedRow) :
    (acc.map (fun e2 => if e2.sku_id == q.sku_id then q else e2)).map
      (fun r => r.sku_id) = acc.map (fun r => r.sku_id) := by
  rw [List.map_map]
  refine List.map_congr_left ?_
  intro x _
  by_cases hx : (x.sku_id == q.sku_id) = true
  · have hxq : x.sku_id = q.sku_id := by
      have := hx
      simpa using this
    simp [Function.comp, hx, hxq]
  · simp [Function.comp, hx]

/-- One merge iteration keeps key distinctness. -/
theorem mergeStep_keysNodup (acc : List SeedRow) (q : SeedRow) (hn : keysNodup acc) :
    keysNodup (mergeStep acc q) := by
  cases hf : acc.find? (fun e => e.sku_id == q.sku_id) with
  | none =>
    rw [mergeStep_eq_insert acc q hf]
    show (List.map (fun r => r.sku_id) (acc ++ [q])).Nodup
    rw [List.map_append]
    refine List.Nodup.append hn (List.nodup_singleton _) ?_
    intro x hx hx2
    rcases List.mem_map.mp hx with ⟨e, he, rfl⟩
    have hx3 : e.sku_id = q.sku_id := by
      have := hx2
      simpa using this
    exact List.find?_eq_none.mp hf e he (by simp [hx3])
  | some e =>
    rw [mergeStep_eq_update acc q e hf]
    by_cases hp : src_priority e.source ≤ src_priority q.source
    · rw [if_pos hp]
      show ((acc.map (fun e2 => if e2.sku_id == q.sku_id then q else e2)).map
        (fun r => r.sku_id)).Nodup
      rw [map_replace_keys acc q]
      exact hn
    · rw [if_neg hp]
      exact hn

/-- One merge iteration does not disturb lookups at other keys. -/
theorem mergeStep_lookup_other (acc : List SeedRow) (q : SeedRow) (k : Str)
    (hk : q.sku_id ≠ k) : seedLookup (mergeStep acc q) k = seedLookup acc k := by
  cases hf : acc.find? (fun e => e.sku_id == q.sku_id) with
  | none =>
    rw [seedLookup, mergeStep_eq_insert acc q hf, List.find?_append]
    cases hs : List.find? (fun e => e.sku_id == k) acc with
    | some r =>
      rw [show seedLookup acc k = some r from hs]
      rfl
    | none =>
      rw [show seedLookup acc k = none from hs]
      show Option.orElse none (fun _ => List.find? (fun e => e.sku_id == k) [q]) = none
      rw [find?_cons_neg (fun e => e.sku_id == k) q [] (by simp [hk])]
      rfl
  | some e =>
    rw [seedLookup, mergeStep_eq_update acc q e hf]
    by_cases hp : src_priority e.source ≤ src_priority q.source
    · rw [if_pos hp]
      exact find?_map_replace acc q k hk
    · rw [if_neg hp]
      rfl

/-- One merge iteration at the incoming row's own key: insert when
absent, replace exactly when the incoming priority is at least the
existing one. -/
theorem mergeStep_lookup_self (acc : List SeedRow) (q : SeedRow) :
    seedLookup (mergeStep acc q) q.sku_id =
      (match seedLookup acc q.sku_id with
       | none => some q
       | some e => if src_priority e.source ≤ src_priority q.source then some q
           else some e) := by
  cases hf : acc.find? (fun e => e.sku_id == q.sku_id) with
  | none =>
    rw [show seedLookup acc q.sku_id = none from hf]
    show seedLookup (mergeStep acc q) q.sku_id = some q
    rw [seedLookup, mergeStep_eq_insert acc q hf, List.find?_append, hf]
    show Option.orElse none (fun _ => List.find? (fun e => e.sku_id == q.sku_id) [q]) =
      some q
    rw [find?_cons_pos (fun e => e.sku_id == q.sku_id) q [] (by simp)]
    rfl
  | some e =>
    rw [show seedLookup acc q.sku_id = some e from hf]
    show seedLookup (mergeStep acc q) q.sku_id =
      if src_priority e.source ≤ src_priority q.source then some q else some e
    rw [seedLookup, mergeStep_eq_update acc q e hf]
    by_cases hp : src_priority e.source ≤ src_priority q.source
    · rw [if_pos hp, if_pos hp]
      exact find?_map_replace_self acc q e hf
    · rw [if_neg hp, if_neg hp]
      exact hf

/-- Folding merge iterations over rows none of which carry key `k`
leaves the lookup at `k` unchanged. -/
theorem foldl_mergeStep_lookup_not_mem (rows : List SeedRow) (k : Str) :
    (∀ q ∈ rows, q.sku_id ≠ k) → ∀ acc : List SeedRow,
      seedLookup (rows.foldl mergeStep acc) k = seedLookup acc k := by
  induction rows with
  | nil =>
    intro _ acc
    rfl
  | cons q rest ih =>
    intro hk acc
    rw [List.foldl_cons, ih (fun x hx => hk x (List.mem_cons_of_mem q hx)) (mergeStep acc q),
      mergeStep_lookup_other acc q k (hk q (List.mem_cons_self q rest))]

/-- Folding merge iterations keeps key distinctness. -/
theorem foldl_mergeStep_keysNodup (rows : List SeedRow) :
    ∀ acc : List SeedRow, keysNodup acc → keysNodup (rows.foldl mergeStep acc) := by
  induction rows with
  | nil =>
    intro acc hn
    exact hn
  | cons q rest ih =>
    intro acc hn
    rw [List.foldl_cons]
    exact ih (mergeStep acc q) (mergeStep_keysNodup acc q hn)

/-- Folding merge iterations over key-distinct incoming rows resolves
each incoming row's key by the insert-or-priority rule. -/
theorem foldl_mergeStep_lookup (rows : List SeedRow) (r : SeedRow) :
    r ∈ rows → (rows.map (fun x => x.sku_id)).Nodup → ∀ acc : List SeedRow,
      seedLookup (rows.foldl mergeStep acc) r.sku_id =
        (match seedLookup acc r.sku_id with
         | none => some r
         | some e => if src_priority e.source ≤ src_priority r.source then some r
             else some e) := by
  induction rows with
  | nil =>
    intro hr
    cases hr
  | cons q rest ih =>
    intro hr hrows acc
    rw [List.map_cons, List.nodup_cons] at hrows
    rcases List.mem_cons.mp hr with rfl | hr2
    · rw [List.foldl_cons,
        foldl_mergeStep_lookup_not_mem rest r.sku_id ?hother (mergeStep acc r),
        mergeStep_lookup_self acc r]
      case hother =>
        intro x hx hxk
        exact hrows.1 (List.mem_map.mpr ⟨x, hx, hxk⟩)
    · have hqr : q.sku_id ≠ r.sku_id := by
        intro hq
        exact hrows.1 (List.mem_map.mpr ⟨r, hr2, hq.symm⟩)
      rw [List.foldl_cons, ih hr2 hrows.2 (mergeStep acc q),
        mergeStep_lookup_other acc q r.sku_id hqr]

/-- C3: for every merged seed with key-distinct existing and incoming
tables, an incoming row whose `sku_id` is absent from the existing seed
is inserted; when present, the incoming row replaces the existing one
exactly when its source priority is at least the existing one; and an
`auto_ref` incoming row never displaces an existing `approved_seed` row,
whose `canonical_name` therefore survives. -/
theorem c3_merge_priority (existing new_rows : List SeedRow)
    (hex : keysNodup existing) (hnew : keysNodup new_rows)
    (r : SeedRow) (hr : r ∈ new_rows) :
    (seedLookup existing r.sku_id = none →
      seedLookup (merge_seed existing new_rows) r.sku_id = some r) ∧
    (∀ e, seedLookup existing r.sku_id = some e →
      seedLookup (merge_seed existing new_rows) r.sku_id =
        some (if src_priority e.source ≤ src_priority r.source then r else e)) ∧
    (∀ e, seedLookup existing r.sku_id = some e → e.source = SRC_APPROVED →
      r.source = SRC_AUTO →
      seedLookup (merge_seed existing new_rows) r.sku_id = some e ∧
        (seedLookup (merge_seed existing new_rows) r.sku_id).map
          (fun x => x.canonical_name) = some e.canonical_name) := by
  by_cases hvide : existing.isEmpty = true
  · have hexnil : existing = [] := List.isEmpty_iff.mp hvide
    subst hexnil
    rw [merge_seed, if_pos (show ([] : List SeedRow).isEmpty = true from rfl)]
    refine ⟨?_, ?_, ?_⟩
    · intro _
      rw [seedLookup_perm (sortBySku new_rows) new_rows
        (List.perm_insertionSort _ new_rows)
        (((List.perm_insertionSort _ new_rows).map (fun x => x.sku_id)).nodup_iff.mpr hnew)]
      exact (seedLookup_eq_some_iff new_rows r.sku_id hnew r).mpr ⟨hr, rfl⟩
    · intro e he
      exact absurd he (by simp [seedLookup])
    · intro e he
      exact absurd he (by simp [seedLookup])
  · rw [merge_seed, if_neg hvide]
    have hnfold : keysNodup (new_rows.foldl mergeStep existing) :=
      foldl_mergeStep_keysNodup new_rows existing hex
    have hperm : (sortBySku (new_rows.foldl mergeStep existing)).Perm
        (new_rows.foldl mergeStep existing) :=
      List.perm_insertionSort _ _
    have hsorteq : seedLookup (sortBySku (new_rows.foldl mergeStep existing)) r.sku_id =
        seedLookup (new_rows.foldl mergeStep existing) r.sku_id :=
      seedLookup_perm _ _ hperm ((hperm.map (fun x => x.sku_id)).nodup_iff.mpr hnfold) _
    rw [hsorteq, foldl_mergeStep_lookup new_rows r hr hnew existing]
    refine ⟨?_, ?_, ?_⟩
    · intro h0
      rw [h0]
    · intro e he
      rw [he]
      show (if src_priority e.source ≤ src_priority r.source then some r else some e) =
        some (if src_priority e.source ≤ src_priority r.source then r else e)
      by_cases hp : src_priority e.source ≤ src_priority r.source
      · rw [if_pos hp, if_pos hp]
      · rw [if_neg hp, if_neg hp]
    · intro e he hap haut
      rw [he]
      have hnp : ¬(src_priority e.source ≤ src_priority r.source) := by
        rw [hap, haut]
        decide
      show (if src_priority e.source ≤ src_priority r.source then some r else some e) =
          some e ∧
        ((if src_priority e.source ≤ src_priority r.source then some r else some e).map
          (fun x => x.canonical_name)) = some e.canonical_name
      rw [if_neg hnp]
      exact ⟨rfl, rfl⟩

/-- Witness for C3: an `auto_ref` update against an existing
`approved_seed` row leaves it untouched, while an unseen `sku_id` gets
inserted. -/
theorem c3_merge_priority_witness :
    seedLookup
      (merge_seed
        [⟨strOf "A", strOf "Official Name", SRC_APPROVED, strOf "d1", strOf "v0.1"⟩]
        [⟨strOf "A", strOf "Auto Name", SRC_AUTO, strOf "d2", strOf "v0.2"⟩,
         ⟨strOf "B", strOf "New Name", SRC_AUTO, strOf "d2", strOf "v0.2"⟩])
      (strOf "A") =
      some ⟨strOf "A", strOf "Official Name", SRC_APPROVED, strOf "d1", strOf "v0.1"⟩ ∧
    seedLookup
      (merge_seed
        [⟨strOf "A", strOf "Official Name", SRC_APPROVED, strOf "d1", strOf "v0.1"⟩]
        [⟨strOf "A", strOf "Auto Name", SRC_AUTO, strOf "d2", strOf "v0.2"⟩,
         ⟨strOf "B", strOf "New Name", SRC_AUTO, strOf "d2", strOf "v0.2"⟩])
      (strOf "B") =
      some ⟨strOf "B", strOf "New Name", SRC_AUTO, strOf "d2", strOf "v0.2"⟩ := by
  constructor
  · exact ((c3_merge_priority
      [⟨strOf "A", strOf "Official Name", SRC_APPROVED, strOf "d1", strOf "v0.1"⟩]
      [⟨strOf "A", strOf "Auto Name", SRC_AUTO, strOf "d2", strOf "v0.2"⟩,
       ⟨strOf "B", strOf "New Name", SRC_AUTO, strOf "d2", strOf "v0.2"⟩]
      (by decide) (by decide)
      ⟨strOf "A", strOf "Auto Name", SRC_AUTO, strOf "d2", strOf "v0.2"⟩
      (by decide)).2.2
      ⟨strOf "A", strOf "Official Name", SRC_APPROVED, strOf "d1", strOf "v0.1"⟩
      (by decide) rfl rfl).1
  · exact (c3_merge_priority
      [⟨strOf "A", strOf "Official Name", SRC_APPROVED, strOf "d1", strOf "v0.1"⟩]
      [⟨strOf "A", strOf "Auto Name", SRC_AUTO, strOf "d2", strOf "v0.2"⟩,
       ⟨strOf "B", strOf "New Name", SRC_AUTO, strOf "d2", strOf "v0.2"⟩]
      (by decide) (by decide)
      ⟨strOf "B", strOf "New Name", SRC_AUTO, strOf "d2", strOf "v0.2"⟩
      (by decide)).1 (by decide)

end Orderly
